import Mathlib

/-!
Verification of the Lightning channel primitives core (`electrum/lnutil.py`).

The Python module is shallowly embedded: byte strings become `List Nat`
(each entry a byte value), Python integers become `Int` (or `Nat` where the
source only ever produces non-negative values), and raising an exception
becomes returning `Except PyErr α`.  External cryptographic primitives
(SHA-256, the bolt11 invoice decoder, the bech32 decoder) are parameters of
the embedded functions: every theorem quantifies over them, so the results
hold for any implementation of those primitives.
-/

/-- Byte strings: a list of byte values. -/
abbrev Bytes := List Nat

/-- Every entry of the list is a genuine byte (fits in 8 bits). -/
def ValidBytes (b : Bytes) : Prop := ∀ x ∈ b, x < 256

instance : DecidablePred ValidBytes := fun b => List.decidableBAll _ b

deriving instance DecidableEq for Except

/-- Exception kinds that the embedded code can raise.  The first seven match
the `LightningError` taxonomy of lnutil.py lines 60-66; `exception` is
Python's builtin generic `Exception` (with its message), and the remaining
constructors are the builtin error classes that the embedded operations can
raise. -/
inductive PyErr where
  | exception (msg : String)
  | lightningPeerConnectionClosed
  | unableToDeriveSecret
  | handshakeFailed
  | paymentFailure
  | connStringFormatError
  | unknownPaymentHash
  | valueError
  | indexError
  | attributeError
  | typeError
  | assertionError
  | keyError
  deriving DecidableEq

/-! ## Hex encoding (`bh2u` / `bfh`)

Modelled from the spec: `bh2u` and `bfh` live in `electrum/util.py`, which is
not part of the provided sources.  They are Python's `bytes.hex()`
(lowercase hex) and `bytes.fromhex()` (pairs of hex digits; a malformed
string raises `ValueError`). -/

/-- Hex digit for a value below 16 (lowercase, as `bytes.hex()` produces). -/
def hexDigit (n : Nat) : Char :=
  if n < 10 then Char.ofNat (48 + n) else Char.ofNat (97 + (n - 10))

/-- Value of a hex digit character; `ValueError` on anything else
(accepting both lowercase and uppercase, as `bytes.fromhex` does). -/
def hexVal (c : Char) : Except PyErr Nat :=
  if 48 ≤ c.toNat ∧ c.toNat ≤ 57 then .ok (c.toNat - 48)
  else if 97 ≤ c.toNat ∧ c.toNat ≤ 102 then .ok (c.toNat - 87)
  else if 65 ≤ c.toNat ∧ c.toNat ≤ 70 then .ok (c.toNat - 55)
  else .error .valueError

/-- Two lowercase hex digits of one byte. -/
def byteToHex (n : Nat) : List Char := [hexDigit (n / 16), hexDigit (n % 16)]

/-- Modelled from the spec: `bh2u` (`bytes.hex()`) as a character list. -/
def bh2uChars (b : Bytes) : List Char := b.flatMap byteToHex

/-- Modelled from the spec: `bh2u` (`bytes.hex()`). -/
def bh2u (b : Bytes) : String := String.mk (bh2uChars b)

/-- Modelled from the spec: `bfh` (`bytes.fromhex`) on a character list. -/
def bfhChars : List Char → Except PyErr Bytes
  | [] => .ok []
  | [_] => .error .valueError
  | c1 :: c2 :: rest => do
      let h ← hexVal c1
      let l ← hexVal c2
      let r ← bfhChars rest
      .ok ((16 * h + l) :: r)

/-- Modelled from the spec: `bfh` (`bytes.fromhex`). -/
def bfh (s : String) : Except PyErr Bytes := bfhChars s.data

/-! ## Shachain: per-commitment secrets (lnutil.py lines 74-160) -/

/-- Bounded trailing-zero count: `ctzAux fuel n` counts the trailing zero
bits of `n`, provided `0 < n ≤ fuel`. -/
def ctzAux : Nat → Nat → Nat
  | 0, _ => 0
  | fuel+1, n => if n % 2 = 1 then 0 else ctzAux fuel (n / 2) + 1

/-- Embedding of `count_trailing_zeros` (lnutil.py line 129): the number of
trailing zero bits of the binary expansion, and 48 for index 0 (the
`ValueError` branch).  For a negative Python int, `bin(index)[2:]` is the
binary expansion of `|index|` preceded by the character `b`, so the count is
that of the absolute value. -/
def count_trailing_zeros (index : Int) : Nat :=
  if index = 0 then 48 else ctzAux index.natAbs index.natAbs

/-- Trailing zeros of a natural index (`count_trailing_zeros` on casts). -/
def ctzN (n : Nat) : Nat := if n = 0 then 48 else ctzAux n n

/-- Test of `i & (1 << b) != 0` for a Python integer `i`: bit `b` of the
two's complement representation, which only depends on `i mod 2^(b+1)`. -/
def int_testBit (i : Int) (b : Nat) : Bool :=
  ((i.emod (2 ^ (b + 1))).toNat).testBit b

/-- One XOR flip of `per_commitment_secret[bitindex // 8] ^= 1 << (bitindex % 8)`
(lnutil.py line 157): byte `b / 8`, bit `b % 8` of the byte array. -/
def flip_bit (s : Bytes) (b : Nat) : Bytes :=
  s.set (b / 8) (Nat.xor (s.getD (b / 8) 0) (2 ^ (b % 8)))

/-- Loop body of `get_per_commitment_secret_from_seed`: processes bit
positions `bits-1` down to `0`. -/
def perCommitAux (sha : Bytes → Bytes) (i : Int) : Nat → Bytes → Bytes
  | 0, s => s
  | b+1, s => perCommitAux sha i b (if int_testBit i b then sha (flip_bit s b) else s)

/-- Embedding of `get_per_commitment_secret_from_seed` (lnutil.py lines
151-160), parametrised by the SHA-256 implementation. -/
def get_per_commitment_secret_from_seed (sha : Bytes → Bytes) (seed : Bytes)
    (i : Int) (bits : Nat) : Bytes :=
  perCommitAux sha i bits seed

/-- Embedding of the `ShachainElement` named tuple. -/
structure ShachainElement where
  secret : Bytes
  index : Int
  deriving DecidableEq

/-- Embedding of the `RevocationStore` state: 49 optional buckets and the
descending insertion index. -/
structure RevocationStore where
  buckets : List (Option ShachainElement)
  index : Int
  deriving DecidableEq

/-- State of a freshly constructed `RevocationStore` (`__init__`). -/
def RevocationStore.fresh : RevocationStore :=
  ⟨List.replicate 49 none, 2 ^ 48 - 1⟩

/-- Embedding of the inner `get_prefix` of `shachain_derive`:
`index & ((1 << 64) - 1 - ((1 << pos) - 1))`.  A Python bitwise AND with a
non-negative mask below `2^64` only sees `index mod 2^64` of the two's
complement representation. -/
def get_prefix_u64 (index : Int) (pos : Nat) : Int :=
  Int.ofNat (Nat.land (index.emod (2 ^ 64)).toNat (2 ^ 64 - 1 - (2 ^ pos - 1)))

/-- Embedding of `shachain_derive` (lnutil.py lines 136-146). -/
def shachain_derive (sha : Bytes → Bytes) (element : ShachainElement)
    (to_index : Int) : Except PyErr ShachainElement :=
  let zeros := count_trailing_zeros element.index
  if element.index ≠ get_prefix_u64 to_index zeros then
    .error .unableToDeriveSecret
  else
    .ok ⟨get_per_commitment_secret_from_seed sha element.secret to_index zeros, to_index⟩

/-- Message of the generic `Exception` raised on a cross-check mismatch in
`add_next_entry` (lnutil.py line 91), with the format arguments filled in. -/
def mismatchMsg (e this_bucket : ShachainElement) : String :=
  "hash is not derivable: " ++ bh2u e.secret ++ " " ++ bh2u this_bucket.secret
    ++ " " ++ toString this_bucket.index

/-- Cross-check loop of `add_next_entry` (`for i in range(0, bucket)`):
checks `remaining` buckets starting at position `i`.  Reading past the end
of the bucket list is an `IndexError`; reading `None.index` is an
`AttributeError`; a failing derivation propagates `UnableToDeriveSecret`;
a derivable but different element raises the generic `Exception`. -/
def addCheckFrom (sha : Bytes → Bytes) (buckets : List (Option ShachainElement))
    (new_element : ShachainElement) : Nat → Nat → Except PyErr Unit
  | _, 0 => .ok ()
  | i, r+1 =>
    match buckets.get? i with
    | none => .error .indexError
    | some none => .error .attributeError
    | some (some this_bucket) =>
      match shachain_derive sha new_element this_bucket.index with
      | .error e => .error e
      | .ok e =>
        if e ≠ this_bucket then .error (.exception (mismatchMsg e this_bucket))
        else addCheckFrom sha buckets new_element (i+1) r

/-- Embedding of `RevocationStore.add_next_entry` (lnutil.py lines 83-93).
A raised exception carries the store state at the moment of the raise (no
field of `self` has been written before any of the raise sites, so that
state is the input store). -/
def add_next_entry (sha : Bytes → Bytes) (store : RevocationStore) (hsh : Bytes) :
    Except (PyErr × RevocationStore) RevocationStore :=
  let new_element : ShachainElement := ⟨hsh, store.index⟩
  let bucket := count_trailing_zeros store.index
  match addCheckFrom sha store.buckets new_element 0 bucket with
  | .error e => .error (e, store)
  | .ok _ =>
    if bucket < store.buckets.length then
      .ok ⟨store.buckets.set bucket new_element, store.index - 1⟩
    else
      .error (.indexError, store)

/-- Scan of `retrieve_secret` over the bucket list. -/
def retrieveAux (sha : Bytes → Bytes) (index : Int) :
    List (Option ShachainElement) → Except PyErr Bytes
  | [] => .error .unableToDeriveSecret
  | none :: _ => .error .unableToDeriveSecret
  | some bucket :: rest =>
    match shachain_derive sha bucket index with
    | .error .unableToDeriveSecret => retrieveAux sha index rest
    | .error e => .error e
    | .ok element => .ok element.secret

/-- Embedding of `RevocationStore.retrieve_secret` (lnutil.py lines 95-104). -/
def retrieve_secret (sha : Bytes → Bytes) (store : RevocationStore)
    (index : Int) : Except PyErr Bytes :=
  retrieveAux sha index store.buckets

/-- Run of claim C1: `insertSeq sha seed N` makes `N` calls of
`add_next_entry` on a fresh store, the `t`-th call passing the secret
`get_per_commitment_secret_from_seed seed (2^48 - t) 48`. -/
def insertSeq (sha : Bytes → Bytes) (seed : Bytes) : Nat → Except (PyErr × RevocationStore) RevocationStore
  | 0 => .ok RevocationStore.fresh
  | n+1 => do
      let s ← insertSeq sha seed n
      add_next_entry sha s
        (get_per_commitment_secret_from_seed sha seed ((2 ^ 48 - (n + 1) : Nat) : Int) 48)

/-! ## Serialization of the revocation store (lnutil.py lines 106-118) -/

/-- Shape of the JSON object produced by `RevocationStore.serialize`:
`{"index": ..., "buckets": [[secret_hex, index] | null, ...]}`. -/
structure SerializedStore where
  buckets : List (Option (String × Int))
  index : Int
  deriving DecidableEq

/-- One bucket of `RevocationStore.serialize`:
`[bh2u(k.secret), k.index] if k is not None else None`. -/
def serializeBucket : Option ShachainElement → Option (String × Int)
  | none => none
  | some k => some (bh2u k.secret, k.index)

/-- One bucket of `RevocationStore.from_json_obj`:
`k if k is None else ShachainElement(bfh(k[0]), int(k[1]))`. -/
def decodeBucket : Option (String × Int) → Except PyErr (Option ShachainElement)
  | none => pure none
  | some k => do
      let sec ← bfh k.1
      pure (some (⟨sec, k.2⟩ : ShachainElement))

/-- Embedding of `RevocationStore.serialize`. -/
def RevocationStore.serialize (store : RevocationStore) : SerializedStore :=
  ⟨store.buckets.map serializeBucket, store.index⟩

/-- Embedding of `RevocationStore.from_json_obj`: decodes each non-null
bucket with `bfh` (whose `ValueError` propagates). -/
def RevocationStore.from_json_obj (d : SerializedStore) :
    Except PyErr RevocationStore := do
  let bs ← d.buckets.mapM decodeBucket
  pure ⟨bs, d.index⟩

/-! ## Commitment transactions (lnutil.py lines 321-466)

The Bitcoin script assembly helpers (`opcodes`, `push_script`,
`add_number_to_script`) and the address encoders live outside the provided
sources; witness scripts are therefore embedded symbolically as a datatype
recording the data pushed into the script, and addresses as a datatype
recording the address kind and the hashed payload. -/

/-- Symbolic witness scripts.  `toLocalShape` is the byte sequence
`OP_IF <revocation_pubkey> OP_ELSE <to_self_delay> OP_CSV OP_DROP
<delayed_pubkey> OP_ENDIF OP_CHECKSIG`, assembled both by
`make_commitment_output_to_local_witness_script` and inline by
`make_htlc_tx_output`.  `raw` stands for any other script byte string. -/
inductive Script where
  | toLocalShape (revocation_pubkey delayed_pubkey : Bytes) (to_self_delay : Int)
  | raw (b : Bytes)
  deriving DecidableEq

/-- Symbolic addresses: the kind string together with the payload that the
external encoder would hash. -/
inductive Addr where
  | fromRedeem (kind : String) (script : Script)
  | fromPubkey (kind : String) (pubkey : Bytes)
  deriving DecidableEq

/-- Modelled from the spec: `bitcoin.redeem_script_to_address` (external). -/
def redeem_script_to_address (kind : String) (script : Script) : Addr :=
  .fromRedeem kind script

/-- Modelled from the spec: `bitcoin.pubkey_to_address` (external). -/
def pubkey_to_address (kind : String) (pubkey : Bytes) : Addr :=
  .fromPubkey kind pubkey

/-- Modelled from the spec: `bitcoin.TYPE_ADDRESS` output-type tag. -/
def TYPE_ADDRESS : Nat := 0

/-- Embedding of the `TxOutput` named tuple `(type, address, value)`. -/
structure TxOutput where
  type : Nat
  address : Addr
  value : Int
  deriving DecidableEq

/-- Embedding of the commitment-transaction input dict built by
`make_funding_input`; `sequence` is `none` until the key is assigned. -/
structure TxInputC where
  type : String
  x_pubkeys : List String
  signatures : List (Option String)
  num_sig : Nat
  prevout_n : Nat
  prevout_hash : Bytes
  value : Int
  coinbase : Bool
  sequence : Option Nat
  deriving DecidableEq

/-- Embedding of a deserialized transaction: what `Transaction.from_io`
records and `extract_ctn_from_tx` reads back. -/
structure Transaction where
  inputs : List TxInputC
  outputs : List TxOutput
  locktime : Nat
  version : Nat
  deriving DecidableEq

/-- Modelled from the spec: `Transaction.from_io` (external). -/
def Transaction.from_io (inputs : List TxInputC) (outputs : List TxOutput)
    (locktime : Nat) (version : Nat) : Transaction :=
  ⟨inputs, outputs, locktime, version⟩

/-- Lexicographic comparison of character lists by code point. -/
def charListLe : List Char → List Char → Bool
  | [], _ => true
  | _ :: _, [] => false
  | x :: xs, y :: ys =>
    if x.toNat < y.toNat then true
    else if y.toNat < x.toNat then false
    else charListLe xs ys

/-- Python string `<=` (lexicographic by code point), as used by `sorted`. -/
def strLe (a b : String) : Bool := charListLe a.data b.data

/-- Embedding of `make_funding_input` (lnutil.py lines 321-337): the 2-of-2
funding input with lexicographically sorted hex pubkeys, plus the
`payments` pair `(payment_basepoint, remote_payment_basepoint)`. -/
def make_funding_input (local_funding_pubkey remote_funding_pubkey
    payment_basepoint remote_payment_basepoint : Bytes)
    (funding_pos : Nat) (funding_txid : Bytes) (funding_sat : Int) :
    TxInputC × (Bytes × Bytes) :=
  let a := bh2u local_funding_pubkey
  let b := bh2u remote_funding_pubkey
  let pubkeys := if strLe a b then [a, b] else [b, a]
  (⟨"p2wsh", pubkeys, [none, none], 2, funding_pos, funding_txid, funding_sat,
    false, none⟩,
   (payment_basepoint, remote_payment_basepoint))

/-- Big-endian integer value of a byte string (`int.from_bytes(_, 'big')`). -/
def beVal (l : Bytes) : Nat := l.foldl (fun a b => 256 * a + b) 0

/-- Last `n` entries of a list (Python `l[-n:]`; the whole list if shorter). -/
def lastN (l : Bytes) (n : Nat) : Bytes := l.drop (l.length - n)

/-- Embedding of `get_obscured_ctn` (lnutil.py lines 456-458):
`ctn XOR int.from_bytes(sha256(funder + fundee)[-6:], 'big')`. -/
def get_obscured_ctn (sha : Bytes → Bytes) (ctn : Nat) (funder fundee : Bytes) : Nat :=
  Nat.xor ctn (beVal (lastN (sha (funder ++ fundee)) 6))

/-- Fee split between the two channel participants
(`fees_per_participant[LOCAL]` and `[REMOTE]`). -/
structure Fees where
  local_fee : Int
  remote_fee : Int
  deriving DecidableEq

/-- In-flight HTLC descriptor (the fields of `htlc` that lnutil reads). -/
structure HTLC where
  amount_msat : Int
  cltv_expiry : Int
  payment_hash : Bytes
  deriving DecidableEq

/-- Embedding of the `ScriptHtlc` named tuple. -/
structure ScriptHtlc where
  redeem_script : Script
  htlc : HTLC
  deriving DecidableEq

/-- Embedding of `make_outputs` (lnutil.py lines 351-366): the unfiltered
HTLC outputs together with `[to_local, to_remote] ++ htlc outputs` filtered
by `value >= dust_limit_sat`. -/
def make_outputs (fees_per_participant : Fees) (local_amount remote_amount : Int)
    (local_tupl remote_tupl : Nat × Addr) (htlcs : List ScriptHtlc)
    (dust_limit_sat : Int) : List TxOutput × List TxOutput :=
  let to_local_amt := local_amount - fees_per_participant.local_fee
  let to_local : TxOutput := ⟨local_tupl.1, local_tupl.2, to_local_amt.fdiv 1000⟩
  let to_remote_amt := remote_amount - fees_per_participant.remote_fee
  let to_remote : TxOutput := ⟨remote_tupl.1, remote_tupl.2, to_remote_amt.fdiv 1000⟩
  let non_htlc_outputs := [to_local, to_remote]
  let htlc_outputs := htlcs.map (fun sh =>
    (⟨TYPE_ADDRESS, redeem_script_to_address "p2wsh" sh.redeem_script,
      sh.htlc.amount_msat.fdiv 1000⟩ : TxOutput))
  let c_outputs_filtered :=
    (non_htlc_outputs ++ htlc_outputs).filter (fun x => dust_limit_sat ≤ x.value)
  (htlc_outputs, c_outputs_filtered)

/-- Embedding of `make_commitment_output_to_local_witness_script`. -/
def make_commitment_output_to_local_witness_script (revocation_pubkey : Bytes)
    (to_self_delay : Int) (delayed_pubkey : Bytes) : Script :=
  .toLocalShape revocation_pubkey delayed_pubkey to_self_delay

/-- Embedding of `make_commitment_output_to_local_address`. -/
def make_commitment_output_to_local_address (revocation_pubkey : Bytes)
    (to_self_delay : Int) (delayed_pubkey : Bytes) : Addr :=
  redeem_script_to_address "p2wsh"
    (make_commitment_output_to_local_witness_script revocation_pubkey to_self_delay delayed_pubkey)

/-- Embedding of `make_commitment_output_to_remote_address`. -/
def make_commitment_output_to_remote_address (remote_payment_pubkey : Bytes) : Addr :=
  pubkey_to_address "p2wpkh" remote_payment_pubkey

/-- Result of `make_commitment`: the transaction with the
`htlc_output_indices` map attached to it. -/
structure CommitTx where
  tx : Transaction
  htlc_output_indices : List (Bytes × Nat)
  deriving DecidableEq

/-- Loop of `make_commitment` that records `payment_hash -> output index`
for the HTLC outputs that survived the dust filter; a duplicate payment hash
fails the `assert`. -/
def buildHtlcIndices (outs : List TxOutput) :
    List (ScriptHtlc × TxOutput) → List (Bytes × Nat) → Except PyErr (List (Bytes × Nat))
  | [], acc => .ok acc
  | (sh, output) :: rest, acc =>
    if output ∈ outs then
      if acc.any (fun p => p.1 == sh.htlc.payment_hash) then .error .assertionError
      else buildHtlcIndices outs rest (acc ++ [(sh.htlc.payment_hash, outs.indexOf output)])
    else buildHtlcIndices outs rest acc

/-- Embedding of `make_commitment` (lnutil.py lines 375-413). -/
def make_commitment (sha : Bytes → Bytes) (ctn : Nat)
    (local_funding_pubkey remote_funding_pubkey remote_payment_pubkey
     payment_basepoint remote_payment_basepoint revocation_pubkey
     delayed_pubkey : Bytes)
    (to_self_delay : Int) (funding_txid : Bytes) (funding_pos : Nat)
    (funding_sat : Int) (local_amount remote_amount : Int)
    (dust_limit_sat : Int) (fees_per_participant : Fees)
    (htlcs : List ScriptHtlc) : Except PyErr CommitTx :=
  let fi := make_funding_input local_funding_pubkey remote_funding_pubkey
    payment_basepoint remote_payment_basepoint funding_pos funding_txid funding_sat
  let payments := fi.2
  let obs := get_obscured_ctn sha ctn payments.1 payments.2
  let locktime := (0x20 <<< 24) + (obs &&& 0xffffff)
  let sequence := (0x80 <<< 24) + (obs >>> 24)
  let c0 := fi.1
  let c_input : TxInputC := ⟨c0.type, c0.x_pubkeys, c0.signatures, c0.num_sig,
    c0.prevout_n, c0.prevout_hash, c0.value, c0.coinbase, some sequence⟩
  let c_inputs := [c_input]
  let local_address := make_commitment_output_to_local_address revocation_pubkey
    to_self_delay delayed_pubkey
  let remote_address := make_commitment_output_to_remote_address remote_payment_pubkey
  let mo := make_outputs fees_per_participant local_amount remote_amount
    (TYPE_ADDRESS, local_address) (TYPE_ADDRESS, remote_address) htlcs dust_limit_sat
  let htlc_outputs := mo.1
  let c_outputs_filtered := mo.2
  if (c_outputs_filtered.map TxOutput.value).sum ≤ funding_sat then
    let tx := Transaction.from_io c_inputs c_outputs_filtered locktime 2
    if htlcs.length = htlc_outputs.length then do
      let idx ← buildHtlcIndices tx.outputs (htlcs.zip htlc_outputs) []
      .ok ⟨tx, idx⟩
    else .error .assertionError
  else .error .assertionError

/-- Embedding of `extract_ctn_from_tx` (lnutil.py lines 460-466); a missing
input is an `IndexError`, a missing `sequence` key a `KeyError`. -/
def extract_ctn_from_tx (sha : Bytes → Bytes) (tx : Transaction) (txin_index : Nat)
    (funder_payment_basepoint fundee_payment_basepoint : Bytes) : Except PyErr Nat :=
  match tx.inputs.get? txin_index with
  | none => .error .indexError
  | some inp =>
    match inp.sequence with
    | none => .error .keyError
    | some sequence =>
      .ok (get_obscured_ctn sha
        (((sequence &&& 0xffffff) <<< 24) + (tx.locktime &&& 0xffffff))
        funder_payment_basepoint fundee_payment_basepoint)

/-! ## Second-stage HTLC transaction output (lnutil.py lines 19-20, 194-214) -/

/-- Weight constant `HTLC_TIMEOUT_WEIGHT` (lnutil.py line 19). -/
def HTLC_TIMEOUT_WEIGHT : Int := 663

/-- Weight constant `HTLC_SUCCESS_WEIGHT` (lnutil.py line 20). -/
def HTLC_SUCCESS_WEIGHT : Int := 703

/-- Embedding of `make_htlc_tx_output` (lnutil.py lines 194-214).  The
assembled script is byte-for-byte the to-local shape; the failing `assert`
on a non-positive output value is an `AssertionError`. -/
def make_htlc_tx_output (amount_msat local_feerate : Int)
    (revocationpubkey local_delayedpubkey : Bytes) (success : Bool)
    (to_self_delay : Int) : Except PyErr TxOutput :=
  let script := Script.toLocalShape revocationpubkey local_delayedpubkey to_self_delay
  let p2wsh := redeem_script_to_address "p2wsh" script
  let weight := if success then HTLC_SUCCESS_WEIGHT else HTLC_TIMEOUT_WEIGHT
  let fee := local_feerate * weight
  let fee2 := fee.fdiv 1000 * 1000
  let final_amount_sat := (amount_msat - fee2).fdiv 1000
  if 0 < final_amount_sat then .ok ⟨TYPE_ADDRESS, p2wsh, final_amount_sat⟩
  else .error .assertionError

/-! ## Peer-address parsing (lnutil.py lines 519-527, 560-581) -/

/-- Split at the first `@`, as `s.split("@", 1)`: `none` when there is no
`@`, otherwise the parts before and after the first `@`. -/
def breakOnAt : List Char → Option (List Char × List Char)
  | [] => none
  | c :: cs =>
    if c = '@' then some ([], cs)
    else
      match breakOnAt cs with
      | none => none
      | some (a, b) => some (c :: a, b)

/-- Node-id portion and remainder chosen by `extract_nodeid`: the part
before the first `@` if any, otherwise the hex of the invoice pubkey if the
string decodes as a bolt11 invoice (`dec` is the external `lndecode`,
returning the serialized pubkey on success), otherwise the whole string. -/
def nodeid_source (dec : String → Option Bytes) (s : String) :
    List Char × Option (List Char) :=
  match breakOnAt s.data with
  | some (pre, post) => (pre, some post)
  | none =>
    match dec s with
    | some pk => (bh2uChars pk, none)
    | none => (s.data, none)

/-- Embedding of `extract_nodeid` (lnutil.py lines 560-581). -/
def extract_nodeid (dec : String → Option Bytes) (connect_contents : String) :
    Except PyErr (Bytes × Option String) :=
  let ns := nodeid_source dec connect_contents
  let nodeid_hex := ns.1
  let rest := ns.2
  if rest = some [] then .error .connStringFormatError
  else
    match bfhChars nodeid_hex with
    | .error _ => .error .connStringFormatError
    | .ok node_id =>
      if node_id.length = 33 then .ok (node_id, rest.map (fun r => String.mk r))
      else .error .connStringFormatError

/-- Inner `while bits >= tobits` emission loop of `convertbits`; the fuel
argument exceeds the number of possible emissions. -/
def emitWhile (tobits maxv : Nat) : Nat → Nat → Nat → List Nat → Nat × List Nat
  | 0, _, bits, ret => (bits, ret)
  | f+1, acc, bits, ret =>
    if 0 < tobits ∧ tobits ≤ bits then
      emitWhile tobits maxv f acc (bits - tobits)
        (ret ++ [(acc >>> (bits - tobits)) &&& maxv])
    else (bits, ret)

/-- Main fold of `convertbits` over the input groups. -/
def cbFold (frombits tobits maxv max_acc : Nat) :
    List Nat → Nat → Nat → List Nat → Option (Nat × Nat × List Nat)
  | [], acc, bits, ret => some (acc, bits, ret)
  | v :: rest, acc, bits, ret =>
    if v >>> frombits ≠ 0 then none
    else
      let acc2 := ((acc <<< frombits) ||| v) &&& max_acc
      let bits2 := bits + frombits
      let er := emitWhile tobits maxv (bits2 + 1) acc2 bits2 ret
      cbFold frombits tobits maxv max_acc rest acc2 er.1 er.2

/-- Modelled from the spec: `segwit_addr.convertbits` (external BIP-173
reference power-of-2 base conversion, "Convert the 5-bit data group to
8-bit"): regroups `frombits`-bit groups into `tobits`-bit groups; without
padding it rejects leftovers of `frombits` bits or more and non-zero
leftover bits. -/
def convertbits (data : List Nat) (frombits tobits : Nat) (pad : Bool) :
    Option (List Nat) :=
  let maxv := (1 <<< tobits) - 1
  let max_acc := (1 <<< (frombits + tobits - 1)) - 1
  match cbFold frombits tobits maxv max_acc data 0 0 [] with
  | none => none
  | some (acc, bits, ret) =>
    if pad then
      if 0 < bits then some (ret ++ [(acc <<< (tobits - bits)) &&& maxv])
      else some ret
    else
      if frombits ≤ bits ∨ ((acc <<< (tobits - bits)) &&& maxv) ≠ 0 then none
      else some ret

/-- Embedding of `get_compressed_pubkey_from_bech32` (lnutil.py lines
519-527), parametrised by the external `segwit_addr.bech32_decode` (which
returns `(None, None)`, here `none`, on an invalid bech32 string).  A
failed conversion makes `None + [0]*k` a `TypeError`; the zero padding
`(33 - len) * [0]` of a longer list is empty. -/
def get_compressed_pubkey_from_bech32
    (bech32_decode : String → Option (String × List Nat))
    (bech32_pubkey : String) : Except PyErr Bytes :=
  match bech32_decode bech32_pubkey with
  | none => .error (.exception "unexpected hrp: None")
  | some (hrp, data_5bits) =>
    if hrp ≠ "ln" then .error (.exception ("unexpected hrp: " ++ hrp))
    else
      match convertbits data_5bits 5 8 false with
      | none => .error .typeError
      | some data_8bits => .ok (data_8bits ++ List.replicate (33 - data_8bits.length) 0)

/-! ## Foundations: powers of two, trailing zeros, cleared low bits -/

/-- Concrete SHA-256 stand-in used by the evaluation witnesses. -/
def sha0 : Bytes → Bytes := fun _ => List.replicate 32 0

/-- Concrete 32-byte seed used by the evaluation witnesses. -/
def seed0 : Bytes := List.replicate 32 1

lemma pow_mul_div_pow_le {z j : Nat} (q : Nat) (h : j ≤ z) :
    2 ^ z * q / 2 ^ j = 2 ^ (z - j) * q := by
  conv_lhs => rw [show z = j + (z - j) by omega, pow_add, mul_assoc]
  exact Nat.mul_div_cancel_left _ (pow_pos (by norm_num) j)

lemma pow_mul_div_pow_ge {z j : Nat} (q : Nat) (h : z ≤ j) :
    2 ^ z * q / 2 ^ j = q / 2 ^ (j - z) := by
  rw [show (2:Nat) ^ j = 2 ^ z * 2 ^ (j - z) by rw [← pow_add]; congr 1; omega]
  exact Nat.mul_div_mul_left _ _ (pow_pos (by norm_num) z)

lemma testBit_two_pow_mul_low {z q j : Nat} (h : j < z) :
    (2 ^ z * q).testBit j = false := by
  rw [Nat.testBit_to_div_mod, pow_mul_div_pow_le q (le_of_lt h)]
  have h2 : (2:Nat) ^ (z - j) * q % 2 = 0 := by
    rw [show (2:Nat) ^ (z - j) = 2 * 2 ^ (z - j - 1) by
      rw [← pow_succ']; congr 1; omega]
    rw [mul_assoc]; exact Nat.mul_mod_right _ _
  simp [h2]

lemma testBit_two_pow_mul_high {z q j : Nat} (h : z ≤ j) :
    (2 ^ z * q).testBit j = q.testBit (j - z) := by
  rw [Nat.testBit_to_div_mod, Nat.testBit_to_div_mod, pow_mul_div_pow_ge q h]

/-- Value of `i` with its low `z` bits cleared. -/
def clearLow (i z : Nat) : Nat := 2 ^ z * (i / 2 ^ z)

lemma clearLow_testBit_low {i z j : Nat} (h : j < z) :
    (clearLow i z).testBit j = false := testBit_two_pow_mul_low h

lemma clearLow_testBit_high {i z j : Nat} (h : z ≤ j) :
    (clearLow i z).testBit j = i.testBit j := by
  rw [clearLow, testBit_two_pow_mul_high h, Nat.testBit_to_div_mod,
    Nat.testBit_to_div_mod, Nat.div_div_eq_div_mul, ← pow_add,
    show z + (j - z) = j by omega]

lemma clearLow_le (i z : Nat) : clearLow i z ≤ i := by
  rw [clearLow, mul_comm]; exact Nat.div_mul_le_self i (2 ^ z)

lemma clearLow_mod (i z : Nat) : clearLow i z % 2 ^ z = 0 := by
  simp [clearLow, Nat.mul_mod_right]

lemma clearLow_of_mod_eq_zero {i z : Nat} (h : i % 2 ^ z = 0) : clearLow i z = i :=
  Nat.mul_div_cancel' (Nat.dvd_of_mod_eq_zero h)

lemma ctzAux_spec : ∀ fuel n, 0 < n → n ≤ fuel →
    2 ^ ctzAux fuel n ∣ n ∧ n / 2 ^ ctzAux fuel n % 2 = 1 := by
  intro fuel
  induction fuel with
  | zero => intro n h1 h2; omega
  | succ fuel ih =>
    intro n h1 h2
    by_cases hodd : n % 2 = 1
    · simp [ctzAux, hodd]
    · have hn2 : 0 < n / 2 := by omega
      have hn2' : n / 2 ≤ fuel := by omega
      obtain ⟨hdvd, hmod⟩ := ih (n / 2) hn2 hn2'
      simp only [ctzAux, hodd, if_false]
      have h2n : n = 2 * (n / 2) := by omega
      constructor
      · have hd : 2 ^ (ctzAux fuel (n / 2) + 1) ∣ 2 * (n / 2) := by
          rw [pow_succ']
          exact mul_dvd_mul_left 2 hdvd
        rwa [← h2n] at hd
      · have hdiv : n / 2 ^ (ctzAux fuel (n / 2) + 1)
            = (n / 2) / 2 ^ ctzAux fuel (n / 2) := by
          rw [pow_succ', ← Nat.div_div_eq_div_mul]
        rw [hdiv]
        exact hmod

lemma ctzN_spec {n : Nat} (h : 0 < n) :
    2 ^ ctzN n ∣ n ∧ n / 2 ^ ctzN n % 2 = 1 := by
  have hne : n ≠ 0 := by omega
  simp only [ctzN, hne, if_false]
  exact ctzAux_spec n n h le_rfl

lemma two_adic_lt_aux {n a b : Nat} (ha2 : n / 2 ^ a % 2 = 1) (hb : 2 ^ b ∣ n)
    (hab : a < b) : False := by
  obtain ⟨m, hm⟩ := hb
  rw [hm, pow_mul_div_pow_le m (le_of_lt hab)] at ha2
  rw [show (2:Nat) ^ (b - a) = 2 * 2 ^ (b - a - 1) by
    rw [← pow_succ']; congr 1; omega] at ha2
  rw [mul_assoc, Nat.mul_mod_right] at ha2
  omega

lemma two_adic_unique {n a b : Nat} (ha : 2 ^ a ∣ n) (ha2 : n / 2 ^ a % 2 = 1)
    (hb : 2 ^ b ∣ n) (hb2 : n / 2 ^ b % 2 = 1) : a = b := by
  rcases Nat.lt_trichotomy a b with h | h | h
  · exact absurd (two_adic_lt_aux ha2 hb h) (by simp)
  · exact h
  · exact absurd (two_adic_lt_aux hb2 ha h) (by simp)

lemma ctzN_eq_of_mod {n b : Nat} (h : n % 2 ^ (b + 1) = 2 ^ b) : ctzN n = b := by
  have hdm := Nat.div_add_mod n (2 ^ (b + 1))
  rw [h] at hdm
  set q := n / 2 ^ (b + 1) with hq
  rw [pow_succ] at hdm
  have hn : n = 2 ^ b * (2 * q + 1) := by
    rw [show 2 ^ b * (2 * q + 1) = 2 ^ b * 2 * q + 2 ^ b by ring]
    omega
  have hpos : 0 < n := by
    have := pow_pos (show (0:Nat) < 2 by norm_num) b
    omega
  obtain ⟨hdvd, hmod⟩ := ctzN_spec hpos
  refine two_adic_unique hdvd hmod ⟨2 * q + 1, hn⟩ ?_
  rw [hn, Nat.mul_div_cancel_left _ (pow_pos (by norm_num) b)]
  omega

lemma ctzN_testBit_low {n j : Nat} (h : j < ctzN n) : n.testBit j = false := by
  rcases Nat.eq_zero_or_pos n with h0 | h0
  · simp [h0]
  · obtain ⟨hdvd, -⟩ := ctzN_spec h0
    obtain ⟨m, hm⟩ := hdvd
    rw [hm]; exact testBit_two_pow_mul_low h

lemma ctzN_testBit_self {n : Nat} (h : 0 < n) : n.testBit (ctzN n) = true := by
  obtain ⟨-, hmod⟩ := ctzN_spec h
  rw [Nat.testBit_to_div_mod]
  simp [hmod]

lemma ctzN_lt_48 {n : Nat} (h0 : 0 < n) (h : n < 2 ^ 48) : ctzN n < 48 := by
  by_contra hge
  obtain ⟨hdvd, -⟩ := ctzN_spec h0
  have h1 : 2 ^ ctzN n ≤ n := Nat.le_of_dvd h0 hdvd
  have h2 : (2:Nat) ^ 48 ≤ 2 ^ ctzN n := Nat.pow_le_pow_right (by norm_num) (by omega)
  omega

lemma ctzN_mod_self {n : Nat} (h : 0 < n) : n % 2 ^ (ctzN n + 1) = 2 ^ ctzN n := by
  obtain ⟨hdvd, hmod⟩ := ctzN_spec h
  set z := ctzN n with hz
  obtain ⟨m, hm⟩ := hdvd
  have hmodd : m % 2 = 1 := by
    rw [hm, Nat.mul_div_cancel_left _ (pow_pos (by norm_num) z)] at hmod
    exact hmod
  obtain ⟨k, hk⟩ : ∃ k, m = 2 * k + 1 := ⟨m / 2, by omega⟩
  have hn : n = 2 ^ (z + 1) * k + 2 ^ z := by
    rw [hm, hk, pow_succ]; ring
  rw [hn, Nat.mul_add_mod]
  have hlt : (2:Nat) ^ z < 2 ^ (z + 1) := by
    rw [pow_succ]
    have := pow_pos (show (0:Nat) < 2 by norm_num) z
    omega
  exact Nat.mod_eq_of_lt hlt

/-! ## Bridges between the Python `Int` operations and `Nat` bit arithmetic -/

lemma count_trailing_zeros_natCast (n : Nat) :
    count_trailing_zeros (n : Int) = ctzN n := by
  by_cases h : n = 0
  · simp [count_trailing_zeros, ctzN, h]
  · have h2 : (n : Int) ≠ 0 := by exact_mod_cast h
    simp [count_trailing_zeros, ctzN, h, h2, Int.natAbs_ofNat]

lemma int_testBit_natCast (n b : Nat) : int_testBit (n : Int) b = n.testBit b := by
  have hcast : (n : Int).emod ((2 : Int) ^ (b + 1)) = ((n % 2 ^ (b + 1) : Nat) : Int) := by
    rw [Int.ofNat_emod]; push_cast; rfl
  rw [int_testBit, hcast, Int.toNat_ofNat, Nat.testBit_mod_two_pow]
  simp

lemma land_high_mask {i z : Nat} (hi : i < 2 ^ 64) (hz : z ≤ 64) :
    Nat.land i (2 ^ 64 - 1 - (2 ^ z - 1)) = clearLow i z := by
  have h2 : (2:Nat) ^ z * 2 ^ (64 - z) = 2 ^ 64 := by
    rw [← pow_add]; congr 1; omega
  have h3 : 0 < (2:Nat) ^ z := pow_pos (by norm_num) z
  have h4 : 0 < (2:Nat) ^ (64 - z) := pow_pos (by norm_num) (64 - z)
  have hmask : (2:Nat) ^ 64 - 1 - (2 ^ z - 1) = 2 ^ z * (2 ^ (64 - z) - 1) := by
    have haux : (2:Nat) ^ z * (2 ^ (64 - z) - 1) + 2 ^ z = 2 ^ z * 2 ^ (64 - z) := by
      obtain ⟨c, hc⟩ : ∃ c, (2:Nat) ^ (64 - z) = c + 1 := ⟨2 ^ (64 - z) - 1, by omega⟩
      rw [hc, Nat.add_sub_cancel]
      ring
    omega
  rw [hmask]
  have hland : Nat.land i (2 ^ z * (2 ^ (64 - z) - 1)) = i &&& 2 ^ z * (2 ^ (64 - z) - 1) := rfl
  rw [hland]
  apply Nat.eq_of_testBit_eq
  intro j
  rw [Nat.testBit_and]
  by_cases hj : j < z
  · simp [clearLow_testBit_low hj, testBit_two_pow_mul_low hj]
  · push_neg at hj
    by_cases hj2 : j < 64
    · rw [testBit_two_pow_mul_high hj, Nat.testBit_two_pow_sub_one,
        clearLow_testBit_high hj]
      simp [show j - z < 64 - z by omega]
    · push_neg at hj2
      have hi2 : i < 2 ^ j :=
        lt_of_lt_of_le hi (Nat.pow_le_pow_right (by norm_num) hj2)
      have hcl : clearLow i z < 2 ^ j := lt_of_le_of_lt (clearLow_le i z) hi2
      rw [Nat.testBit_lt_two_pow hi2, Nat.testBit_lt_two_pow hcl]
      simp

lemma get_prefix_u64_natCast {i : Nat} (z : Nat) (hi : i < 2 ^ 64) (hz : z ≤ 64) :
    get_prefix_u64 (i : Int) z = ((clearLow i z : Nat) : Int) := by
  have hcast : (i : Int).emod ((2 : Int) ^ 64) = ((i % 2 ^ 64 : Nat) : Int) := by
    rw [Int.ofNat_emod]; push_cast; rfl
  rw [get_prefix_u64, hcast, Int.toNat_ofNat, Nat.mod_eq_of_lt hi,
    land_high_mask hi hz]
  rfl

/-! ## Loop algebra for the per-commitment secret derivation -/

/-- Derivation loop over `Nat` indices: processes bit positions
`lo + c - 1` down to `lo`. -/
def natLoopFrom (sha : Bytes → Bytes) (i lo : Nat) : Nat → Bytes → Bytes
  | 0, s => s
  | c+1, s =>
    natLoopFrom sha i lo c (if i.testBit (lo + c) then sha (flip_bit s (lo + c)) else s)

lemma perCommitAux_natCast (sha : Bytes → Bytes) (i : Nat) :
    ∀ b s, perCommitAux sha (i : Int) b s = natLoopFrom sha i 0 b s := by
  intro b
  induction b with
  | zero => intro s; rfl
  | succ b ih =>
    intro s
    rw [perCommitAux, natLoopFrom, int_testBit_natCast, Nat.zero_add, ih]

lemma get_per_commitment_natCast (sha : Bytes → Bytes) (seed : Bytes) (i : Nat)
    (bits : Nat) :
    get_per_commitment_secret_from_seed sha seed (i : Int) bits
      = natLoopFrom sha i 0 bits seed :=
  perCommitAux_natCast sha i bits seed

lemma natLoopFrom_add (sha : Bytes → Bytes) (i lo a : Nat) :
    ∀ b s, natLoopFrom sha i lo (a + b) s
      = natLoopFrom sha i lo a (natLoopFrom sha i (lo + a) b s) := by
  intro b
  induction b with
  | zero => intro s; rfl
  | succ b ih =>
    intro s
    rw [show a + (b + 1) = (a + b) + 1 by omega, natLoopFrom, ih, natLoopFrom,
      show lo + (a + b) = lo + a + b by omega]

lemma natLoopFrom_congr (sha : Bytes → Bytes) {i j : Nat} (lo : Nat) :
    ∀ c, (∀ b, lo ≤ b → b < lo + c → i.testBit b = j.testBit b) →
      ∀ s, natLoopFrom sha i lo c s = natLoopFrom sha j lo c s := by
  intro c
  induction c with
  | zero => intro _ s; rfl
  | succ c ih =>
    intro h s
    rw [natLoopFrom, natLoopFrom, h (lo + c) (by omega) (by omega)]
    exact ih (fun b h1 h2 => h b h1 (by omega)) _

lemma natLoopFrom_zero_bits (sha : Bytes → Bytes) {i : Nat} (lo : Nat) :
    ∀ c, (∀ b, lo ≤ b → b < lo + c → i.testBit b = false) →
      ∀ s, natLoopFrom sha i lo c s = s := by
  intro c
  induction c with
  | zero => intro _ s; rfl
  | succ c ih =>
    intro h s
    rw [natLoopFrom, h (lo + c) (by omega) (by omega)]
    exact ih (fun b h1 h2 => h b h1 (by omega)) s

/-- Composition of shachain derivations: deriving to `i` over `z` bits from
the secret of an index `m` that has zero low bits below `z` and agrees with
`i` above reproduces the direct 48-bit derivation of `i`. -/
lemma shachain_compose (sha : Bytes → Bytes) (S : Bytes) {m i z : Nat}
    (hz : z ≤ 48)
    (hlow : ∀ b, b < z → m.testBit b = false)
    (hhigh : ∀ b, z ≤ b → m.testBit b = i.testBit b) :
    natLoopFrom sha i 0 z (natLoopFrom sha m 0 48 S) = natLoopFrom sha i 0 48 S := by
  have h48 : z + (48 - z) = 48 := by omega
  have hm : natLoopFrom sha m 0 48 S = natLoopFrom sha m z (48 - z) S := by
    conv_lhs => rw [← h48]
    rw [natLoopFrom_add]
    rw [natLoopFrom_zero_bits sha 0 z (fun b h1 h2 => hlow b (by omega))]
    rw [Nat.zero_add]
  rw [hm,
    natLoopFrom_congr sha z (48 - z) (fun b h1 _ => hhigh b h1) S,
    show natLoopFrom sha i z (48 - z) S = natLoopFrom sha i (0 + z) (48 - z) S by
      rw [Nat.zero_add],
    ← natLoopFrom_add, h48]

/-! ## Claim C2: the derivation loop matches its reference description -/

/-- Reference computation from the claim: starting from the seed, for bit
positions `w-1` down to `0`, if the bit of `i` is set, flip the
corresponding little-endian bit and apply SHA-256. -/
def perCommitmentSecretSpec (sha : Bytes → Bytes) (seed : Bytes) (i w : Nat) : Bytes :=
  ((List.range w).reverse).foldl
    (fun s b => if i.testBit b then sha (flip_bit s b) else s) seed

lemma natLoopFrom_eq_foldl (sha : Bytes → Bytes) (i : Nat) :
    ∀ w s, natLoopFrom sha i 0 w s
      = ((List.range w).reverse).foldl
          (fun s b => if i.testBit b then sha (flip_bit s b) else s) s := by
  intro w
  induction w with
  | zero => intro s; rfl
  | succ w ih =>
    intro s
    rw [natLoopFrom, List.range_succ, List.reverse_append, Nat.zero_add]
    simp only [List.reverse_cons, List.reverse_nil, List.nil_append,
      List.singleton_append, List.foldl_cons]
    exact ih _

/-- C2: for every 32-byte seed, index `i < 2^48` and bit width `w`,
`get_per_commitment_secret_from_seed` equals the reference computation that
walks bits `w-1` down to `0`, flipping little-endian bit `b` (byte `b/8`,
bit `b%8`) and hashing exactly when bit `b` of `i` is set; in particular
index `0` returns the seed unchanged. -/
theorem C2_per_commitment_secret_reference (sha : Bytes → Bytes) (seed : Bytes)
    (i w : Nat) (hseed : seed.length = 32) (hi : i < 2 ^ 48) :
    get_per_commitment_secret_from_seed sha seed (i : Int) w
        = perCommitmentSecretSpec sha seed i w
      ∧ get_per_commitment_secret_from_seed sha seed ((0 : Nat) : Int) w = seed := by
  constructor
  · rw [get_per_commitment_natCast, perCommitmentSecretSpec,
      natLoopFrom_eq_foldl]
  · rw [get_per_commitment_natCast]
    exact natLoopFrom_zero_bits sha 0 w (fun b _ _ => Nat.zero_testBit b) seed

/-- Evaluation witness for C2 at a concrete seed, index and width. -/
theorem C2_witness :
    seed0.length = 32 ∧ (5 : Nat) < 2 ^ 48 ∧
      (get_per_commitment_secret_from_seed sha0 seed0 ((5 : Nat) : Int) 48
          = perCommitmentSecretSpec sha0 seed0 5 48
        ∧ get_per_commitment_secret_from_seed sha0 seed0 ((0 : Nat) : Int) 48 = seed0) :=
  ⟨by decide, by decide,
    C2_per_commitment_secret_reference sha0 seed0 5 48 (by decide) (by decide)⟩

/-! ## Claim C10: serialize / from_json_obj roundtrip -/

lemma hexVal_hexDigit {k : Nat} (h : k < 16) : hexVal (hexDigit k) = .ok k := by
  interval_cases k <;> decide

lemma bfhChars_bh2uChars (b : Bytes) (h : ValidBytes b) :
    bfhChars (bh2uChars b) = .ok b := by
  induction b with
  | nil => rfl
  | cons x t ih =>
    have hx : x < 256 := h x (List.mem_cons_self x t)
    have ht : ValidBytes t := fun y hy => h y (List.mem_cons_of_mem x hy)
    simp only [bh2uChars, List.flatMap_cons, byteToHex, List.cons_append,
      List.nil_append]
    rw [show (bh2uChars t : List Char) = t.flatMap byteToHex from rfl] at ih
    rw [bfhChars, hexVal_hexDigit (by omega : x / 16 < 16),
      hexVal_hexDigit (by omega : x % 16 < 16)]
    simp only [bind, Except.bind]
    rw [ih ht]
    have : 16 * (x / 16) + x % 16 = x := by omega
    rw [this]

/-- Validity of one bucket for serialization: a stored secret is a 32-byte
string. -/
def bucketValidB (o : Option ShachainElement) : Bool :=
  match o with
  | none => true
  | some e => e.secret.length == 32 && e.secret.all (fun x => x < 256)

lemma decodeBucket_serializeBucket {o : Option ShachainElement}
    (h : bucketValidB o = true) : decodeBucket (serializeBucket o) = .ok o := by
  cases o with
  | none => rfl
  | some e =>
    simp only [bucketValidB, Bool.and_eq_true, beq_iff_eq, List.all_eq_true,
      decide_eq_true_eq] at h
    have hval : ValidBytes e.secret := fun y hy => h.2 y hy
    simp only [serializeBucket, decodeBucket, bfh]
    rw [show (bh2u e.secret).data = bh2uChars e.secret from rfl]
    rw [bfhChars_bh2uChars e.secret hval]
    rfl

lemma mapM_decode_serialize :
    ∀ l : List (Option ShachainElement), (∀ o ∈ l, bucketValidB o = true) →
      (l.map serializeBucket).mapM decodeBucket = Except.ok l := by
  intro l
  induction l with
  | nil => intro _; rfl
  | cons o t ih =>
    intro h
    rw [List.map_cons, List.mapM_cons,
      decodeBucket_serializeBucket (h o (List.mem_cons_self o t)),
      ih (fun o' ho' => h o' (List.mem_cons_of_mem o ho'))]
    rfl

/-- C10: for every revocation-store state whose occupied buckets hold
32-byte secrets, `from_json_obj (serialize s)` succeeds and returns a store
with the same index and bucket-by-bucket identical `(secret, index)`
contents. -/
theorem C10_serialize_roundtrip (s : RevocationStore)
    (hval : ∀ o ∈ s.buckets, bucketValidB o = true) :
    RevocationStore.from_json_obj (RevocationStore.serialize s) = .ok s := by
  obtain ⟨bs, idx⟩ := s
  simp only [RevocationStore.serialize, RevocationStore.from_json_obj]
  rw [mapM_decode_serialize bs hval]
  rfl

/-- Concrete store state for the C10 witness. -/
def s10 : RevocationStore :=
  ⟨[some ⟨List.replicate 32 255, 2 ^ 48 - 1⟩, none, some ⟨seed0, 0⟩], -3⟩

/-- Evaluation witness for C10 at a concrete store state. -/
theorem C10_witness :
    (∀ o ∈ s10.buckets, bucketValidB o = true) ∧
      RevocationStore.from_json_obj (RevocationStore.serialize s10) = .ok s10 :=
  ⟨by decide, C10_serialize_roundtrip s10 (by decide)⟩

/-! ## Claim C9: add_next_entry leaves the store unchanged on failure -/

/-- C9: every error raised by `add_next_entry` carries the unmodified input
store: no bucket has been written and the index has not been decremented at
any raise site. -/
theorem C9_add_next_entry_atomic (sha : Bytes → Bytes) (store : RevocationStore)
    (hsh : Bytes) (e : PyErr) (s' : RevocationStore)
    (h : add_next_entry sha store hsh = .error (e, s')) : s' = store := by
  simp only [add_next_entry] at h
  cases hc : addCheckFrom sha store.buckets ⟨hsh, store.index⟩ 0
      (count_trailing_zeros store.index) with
  | error e2 =>
    rw [hc] at h
    simp only [Except.error.injEq, Prod.mk.injEq] at h
    exact h.2.symm
  | ok u =>
    rw [hc] at h
    by_cases hlen : count_trailing_zeros store.index < store.buckets.length
    · simp [hlen] at h
    · simp only [hlen, if_false, Except.error.injEq, Prod.mk.injEq] at h
      exact h.2.symm

/-- Concrete store whose next cross-check fails (bucket 0 holds a secret
that the newly inserted element cannot reproduce). -/
def store9 : RevocationStore :=
  ⟨some ⟨[1], 2 ^ 48 - 1⟩ :: List.replicate 48 none, 2 ^ 48 - 2⟩

/-- Error raised by the concrete failing insertion of the C9 witness. -/
def err9 : PyErr × RevocationStore :=
  match add_next_entry sha0 store9 seed0 with
  | .error p => p
  | .ok _ => (.valueError, store9)

/-- Evaluation witness for C9: a concrete failing insertion whose raised
error carries the unchanged store. -/
theorem C9_witness :
    add_next_entry sha0 store9 seed0 = .error err9 ∧ err9.2 = store9 :=
  have h : add_next_entry sha0 store9 seed0 = .error err9 := by decide
  ⟨h, C9_add_next_entry_atomic sha0 store9 seed0 err9.1 err9.2 h⟩

/-! ## Claim C3: what a cross-check mismatch raises -/

/-- Concrete store for the C3 mismatch run. -/
def store3 : RevocationStore :=
  ⟨some ⟨[2], 2 ^ 48 - 1⟩ :: List.replicate 48 none, 2 ^ 48 - 2⟩

/-- Counterexample to C3 as stated: a cross-check mismatch raises the
builtin generic `Exception` kind (there is no `ShachainInsertionMismatch`
class in the code), so the raised error is not distinguishable from a
generic exception. -/
theorem C3_counterexample :
    add_next_entry sha0 store3 seed0
      = .error (.exception (mismatchMsg ⟨List.replicate 32 0, ((2:Int) ^ 48 - 1)⟩
          ⟨[2], ((2:Int) ^ 48 - 1)⟩), store3) := by
  decide

lemma addCheckFrom_skip (sha : Bytes → Bytes) (buckets : List (Option ShachainElement))
    (newel : ShachainElement) :
    ∀ (j start r : Nat),
      (∀ k, k < j → ∃ tb, buckets.get? (start + k) = some (some tb) ∧
        shachain_derive sha newel tb.index = .ok tb) →
      addCheckFrom sha buckets newel start (j + r)
        = addCheckFrom sha buckets newel (start + j) r := by
  intro j
  induction j with
  | zero => intro start r _; rw [Nat.zero_add, Nat.add_zero]
  | succ j ih =>
    intro start r h
    obtain ⟨tb, hget, hder⟩ := h 0 (by omega)
    rw [Nat.add_zero] at hget
    rw [show j + 1 + r = (j + r) + 1 by omega]
    simp only [addCheckFrom, hget, hder, ne_eq, not_true_eq_false, if_false,
      ite_self]
    have hshift : ∀ k, k < j → ∃ tb, buckets.get? (start + 1 + k) = some (some tb) ∧
        shachain_derive sha newel tb.index = .ok tb := by
      intro k hk
      obtain ⟨tbk, h1, h2⟩ := h (k + 1) (by omega)
      exact ⟨tbk, by rw [show start + 1 + k = start + (k + 1) by omega]; exact h1, h2⟩
    rw [ih (start + 1) r hshift, show start + 1 + j = start + (j + 1) by omega]

/-- C3 (amended): when the cross-check of `add_next_entry` reaches a lower
occupied bucket whose stored element differs from the derived one, it
raises Python's builtin generic `Exception` (message `hash is not
derivable: ...`) — a kind distinguishable from `UnableToDeriveSecret` but
not a dedicated `ShachainInsertionMismatch` kind, which does not exist in
the code. -/
theorem C3_mismatch_is_generic_exception (sha : Bytes → Bytes)
    (store : RevocationStore) (hsh : Bytes) (i : Nat) (tb e : ShachainElement)
    (hib : i < count_trailing_zeros store.index)
    (hpass : ∀ k, k < i → ∃ tbk, store.buckets.get? k = some (some tbk) ∧
      shachain_derive sha ⟨hsh, store.index⟩ tbk.index = .ok tbk)
    (hbk : store.buckets.get? i = some (some tb))
    (hde : shachain_derive sha ⟨hsh, store.index⟩ tb.index = .ok e)
    (hne : e ≠ tb) :
    add_next_entry sha store hsh = .error (.exception (mismatchMsg e tb), store)
      ∧ PyErr.exception (mismatchMsg e tb) ≠ PyErr.unableToDeriveSecret := by
  refine ⟨?_, by intro h; cases h⟩
  simp only [add_next_entry]
  have hsplit : count_trailing_zeros store.index = i + ((count_trailing_zeros store.index - i - 1) + 1) := by
    omega
  rw [hsplit, addCheckFrom_skip sha store.buckets ⟨hsh, store.index⟩ i 0 _
    (by intro k hk; rw [Nat.zero_add]; exact hpass k hk), Nat.zero_add]
  simp only [addCheckFrom, hbk, hde, hne, ne_eq, not_false_eq_true, if_true]

/-- Evaluation witness for the amended C3 at the concrete mismatch run. -/
theorem C3_witness :
    add_next_entry sha0 store3 seed0
        = .error (.exception (mismatchMsg ⟨List.replicate 32 0, ((2:Int) ^ 48 - 1)⟩
            ⟨[2], ((2:Int) ^ 48 - 1)⟩), store3)
      ∧ PyErr.exception (mismatchMsg ⟨List.replicate 32 0, ((2:Int) ^ 48 - 1)⟩
          ⟨[2], ((2:Int) ^ 48 - 1)⟩) ≠ PyErr.unableToDeriveSecret :=
  C3_mismatch_is_generic_exception sha0 store3 seed0 0
    ⟨[2], (2:Int) ^ 48 - 1⟩ ⟨List.replicate 32 0, (2:Int) ^ 48 - 1⟩
    (by decide) (fun k hk => absurd hk (by omega)) (by decide) (by decide)
    (by decide)

/-! ## Claim C6: make_htlc_tx_output -/

/-- C6: `make_htlc_tx_output` produces exactly one p2wsh output of
`(amount_msat - fee) div 1000` satoshi, where
`fee = (feerate * W div 1000) * 1000` msat with weight `W = 703` for
HTLC-success and `W = 663` for HTLC-timeout, and fails with the fatal
`AssertionError` exactly when that satoshi value is not strictly
positive. -/
theorem C6_make_htlc_tx_output (amount_msat local_feerate : Int)
    (revocationpubkey local_delayedpubkey : Bytes) (success : Bool)
    (to_self_delay : Int) :
    make_htlc_tx_output amount_msat local_feerate revocationpubkey
        local_delayedpubkey success to_self_delay
      = (if 0 < (amount_msat
              - (local_feerate * (if success then 703 else 663)).fdiv 1000 * 1000).fdiv 1000
         then .ok ⟨TYPE_ADDRESS,
            redeem_script_to_address "p2wsh"
              (Script.toLocalShape revocationpubkey local_delayedpubkey to_self_delay),
            (amount_msat
              - (local_feerate * (if success then 703 else 663)).fdiv 1000 * 1000).fdiv 1000⟩
         else .error .assertionError) := by
  cases success <;> rfl

/-! ## Claim C7: extract_nodeid -/

/-- C7: `extract_nodeid` raises `ConnStringFormatError` when the string
contains `@` with an empty right-hand side, and when the node-id portion
does not hex-decode to exactly 33 bytes; every success returns a 33-byte
node id together with the remainder after the first `@` (absent when there
is no `@`). -/
theorem C7_extract_nodeid (dec : String → Option Bytes) (s : String) :
    (∀ pre, breakOnAt s.data = some (pre, []) →
        extract_nodeid dec s = .error .connStringFormatError)
      ∧ ((match bfhChars (nodeid_source dec s).1 with
          | .error _ => True
          | .ok b => b.length ≠ 33) →
          extract_nodeid dec s = .error .connStringFormatError)
      ∧ (∀ nid rest, extract_nodeid dec s = .ok (nid, rest) →
          nid.length = 33
            ∧ rest = (match breakOnAt s.data with
                | some p => some (String.mk p.2)
                | none => none)) := by
  refine ⟨?_, ?_, ?_⟩
  · intro pre hpre
    simp [extract_nodeid, nodeid_source, hpre]
  · intro hbad
    simp only [extract_nodeid]
    by_cases hrest : (nodeid_source dec s).2 = some []
    · simp [hrest]
    · simp only [hrest, if_false]
      cases hbfh : bfhChars (nodeid_source dec s).1 with
      | error e => rfl
      | ok b =>
        rw [hbfh] at hbad
        simp only [hbad, if_false]
  · intro nid rest hok
    simp only [extract_nodeid] at hok
    by_cases hrest : (nodeid_source dec s).2 = some []
    · simp [hrest] at hok
    · simp only [hrest, if_false] at hok
      cases hbfh : bfhChars (nodeid_source dec s).1 with
      | error e => rw [hbfh] at hok; cases hok
      | ok b =>
        rw [hbfh] at hok
        by_cases hlen : b.length = 33
        · simp only [hlen, if_true, Except.ok.injEq, Prod.mk.injEq] at hok
          obtain ⟨hnid, hr⟩ := hok
          subst hnid
          constructor
          · exact hlen
          · rw [← hr]
            simp only [nodeid_source]
            cases hbr : breakOnAt s.data with
            | some p => rfl
            | none => cases dec s <;> rfl
        · simp [hlen] at hok

/-- Constant invoice decoder used by the C7 witness. -/
def dec0 : String → Option Bytes := fun _ => none

/-- Evaluation witness for C7: the string `ab@` has an `@` with empty
right-hand side and is rejected. -/
theorem C7_witness :
    breakOnAt ("ab@".data) = some (['a', 'b'], [])
      ∧ extract_nodeid dec0 "ab@" = .error .connStringFormatError :=
  ⟨by decide, (C7_extract_nodeid dec0 "ab@").1 ['a', 'b'] (by decide)⟩

/-! ## Claim C8: bech32 Lightning pubkey decoding -/

/-- Decoder exhibiting the C8 counterexample: a valid bech32 string whose
data part is 56 five-bit groups (within the 90-character bech32 limit)
converts to 35 bytes. -/
def dec8 : String → Option (String × List Nat) :=
  fun _ => some ("ln", List.replicate 56 0)

set_option maxRecDepth 4000 in
/-- Counterexample to C8 as stated: with hrp `ln` and a 56-group data part
the function returns 35 bytes, not exactly 33; the zero padding never
truncates. -/
theorem C8_counterexample :
    get_compressed_pubkey_from_bech32 dec8 "lnx"
        = .ok (List.replicate 35 0)
      ∧ (List.replicate 35 0 : Bytes).length ≠ 33 := by
  constructor
  · decide
  · decide

/-- C8 (amended): the function fails whenever the hrp is not `ln` (also
when bech32 decoding itself fails), fails with a `TypeError` when the
5-to-8-bit conversion fails, and otherwise returns the conversion
right-padded with zero bytes up to 33 — exactly 33 bytes when the
conversion has at most 33 bytes, and the unpadded longer list otherwise. -/
theorem C8_bech32_pubkey (bech32_decode : String → Option (String × List Nat))
    (s : String) :
    (bech32_decode s = none →
        get_compressed_pubkey_from_bech32 bech32_decode s
          = .error (.exception "unexpected hrp: None"))
      ∧ (∀ hrp data, bech32_decode s = some (hrp, data) → hrp ≠ "ln" →
          get_compressed_pubkey_from_bech32 bech32_decode s
            = .error (.exception ("unexpected hrp: " ++ hrp)))
      ∧ (∀ hrp data, bech32_decode s = some (hrp, data) → hrp = "ln" →
          convertbits data 5 8 false = none →
          get_compressed_pubkey_from_bech32 bech32_decode s = .error .typeError)
      ∧ (∀ hrp data conv, bech32_decode s = some (hrp, data) → hrp = "ln" →
          convertbits data 5 8 false = some conv →
          get_compressed_pubkey_from_bech32 bech32_decode s
              = .ok (conv ++ List.replicate (33 - conv.length) 0)
            ∧ (conv ++ List.replicate (33 - conv.length) 0).length
                = max 33 conv.length) := by
  refine ⟨?_, ?_, ?_, ?_⟩
  · intro h
    simp only [get_compressed_pubkey_from_bech32, h]
  · intro hrp data h hne
    simp only [get_compressed_pubkey_from_bech32, h, hne, ne_eq,
      not_false_eq_true, if_true]
  · intro hrp data h he hcb
    subst he
    simp only [get_compressed_pubkey_from_bech32, h, hcb, ne_eq,
      not_true_eq_false, if_false]
  · intro hrp data conv h he hcb
    subst he
    simp only [get_compressed_pubkey_from_bech32, h, hcb, ne_eq,
      not_true_eq_false, if_false]
    refine ⟨by trivial, ?_⟩
    rw [List.length_append, List.length_replicate]
    omega

/-- Decoder for the C8 witness: two zero groups convert to one byte. -/
def dec8b : String → Option (String × List Nat) := fun _ => some ("ln", [0, 0])

/-- Evaluation witness for the amended C8 at a concrete short data part. -/
theorem C8_witness :
    get_compressed_pubkey_from_bech32 dec8b "s" = .ok (List.replicate 33 0)
      ∧ (List.replicate 33 0 : Bytes).length = max 33 1 :=
  ((C8_bech32_pubkey dec8b "s").2.2.2 "ln" [0, 0] [0] (by decide) rfl (by decide))

/-! ## Claim C4: obscured commitment number roundtrip -/

lemma beVal_aux (l : Bytes) (h : ValidBytes l) :
    ∀ a, List.foldl (fun a b => 256 * a + b) a l < (a + 1) * 256 ^ l.length := by
  induction l with
  | nil => intro a; simp
  | cons x t ih =>
    intro a
    have hx : x < 256 := h x (List.mem_cons_self x t)
    have ht : ValidBytes t := fun y hy => h y (List.mem_cons_of_mem x hy)
    have h1 := ih ht (256 * a + x)
    have h2 : (256 * a + x + 1) * 256 ^ t.length ≤ (a + 1) * 256 ^ (t.length + 1) := by
      rw [pow_succ, show (a + 1) * (256 ^ t.length * 256) = (256 * (a + 1)) * 256 ^ t.length by ring]
      exact Nat.mul_le_mul_right _ (by omega)
    calc List.foldl (fun a b => 256 * a + b) a (x :: t)
        = List.foldl (fun a b => 256 * a + b) (256 * a + x) t := rfl
      _ < (256 * a + x + 1) * 256 ^ t.length := h1
      _ ≤ (a + 1) * 256 ^ (t.length + 1) := h2
      _ = (a + 1) * 256 ^ (x :: t).length := by rw [List.length_cons]

lemma beVal_lt_of_len_le {l : Bytes} (h : ValidBytes l) (hlen : l.length ≤ 6) :
    beVal l < 2 ^ 48 := by
  have h1 := beVal_aux l h 0
  rw [Nat.one_mul] at h1
  have h2 : (256:Nat) ^ l.length ≤ 256 ^ 6 := Nat.pow_le_pow_right (by norm_num) hlen
  have h3 : (256:Nat) ^ 6 = 2 ^ 48 := by norm_num
  rw [beVal]
  omega

lemma obscure_mask_lt (sha : Bytes → Bytes) (hsha : ∀ x, ValidBytes (sha x))
    (funder fundee : Bytes) :
    beVal (lastN (sha (funder ++ fundee)) 6) < 2 ^ 48 := by
  apply beVal_lt_of_len_le
  · intro y hy
    exact hsha (funder ++ fundee) y (List.drop_subset _ _ hy)
  · rw [lastN, List.length_drop]
    omega

lemma and_two_pow_sub_one (x n : Nat) : x &&& (2 ^ n - 1) = x % 2 ^ n := by
  apply Nat.eq_of_testBit_eq
  intro j
  rw [Nat.testBit_and, Nat.testBit_two_pow_sub_one, Nat.testBit_mod_two_pow,
    Bool.and_comm]

lemma ctn_roundtrip_arith {obs : Nat} (hobs : obs < 2 ^ 48) :
    ((((0x80 <<< 24) + (obs >>> 24)) &&& 0xffffff) <<< 24)
        + (((0x20 <<< 24) + (obs &&& 0xffffff)) &&& 0xffffff) = obs := by
  have h24 : (0xffffff : Nat) = 2 ^ 24 - 1 := by norm_num
  rw [h24, and_two_pow_sub_one, and_two_pow_sub_one, and_two_pow_sub_one]
  rw [Nat.shiftLeft_eq, Nat.shiftLeft_eq, Nat.shiftLeft_eq,
    Nat.shiftRight_eq_div_pow]
  have hdivlt : obs / 2 ^ 24 < 2 ^ 24 := by
    apply Nat.div_lt_of_lt_mul
    calc obs < 2 ^ 48 := hobs
      _ = 2 ^ 24 * 2 ^ 24 := by norm_num
  have h1 : (0x80 * 2 ^ 24 + obs / 2 ^ 24) % 2 ^ 24 = obs / 2 ^ 24 := by
    rw [show (0x80 : Nat) * 2 ^ 24 = 2 ^ 24 * 0x80 by ring, Nat.mul_add_mod]
    exact Nat.mod_eq_of_lt hdivlt
  have h2 : (0x20 * 2 ^ 24 + obs % 2 ^ 24) % 2 ^ 24 = obs % 2 ^ 24 := by
    rw [show (0x20 : Nat) * 2 ^ 24 = 2 ^ 24 * 0x20 by ring, Nat.mul_add_mod,
      Nat.mod_mod_of_dvd obs dvd_rfl]
  rw [h1, h2, Nat.mul_comm]
  exact Nat.div_add_mod obs (2 ^ 24)

lemma nat_xor_cancel (a b : Nat) : Nat.xor (Nat.xor a b) b = a :=
  Nat.xor_cancel_right b a

/-- C4: extracting the commitment number from a transaction produced by
`make_commitment`, at input 0 and with the same payment basepoints in the
same order, recovers `ctn`: the obscured value split across the locktime
(low 24 bits under the `0x20` byte) and the funding input's sequence (high
24 bits under the `0x80` byte) reassembles, and the XOR mask from
`sha256(funder_pb ++ fundee_pb)[-6:]` cancels. -/
theorem C4_extract_ctn_roundtrip (sha : Bytes → Bytes)
    (hsha : ∀ x, ValidBytes (sha x)) (ctn : Nat) (hctn : ctn < 2 ^ 48)
    (lf rf rpp pb rpb rvk dpk : Bytes) (tsd : Int) (ftxid : Bytes)
    (fpos : Nat) (fsat la ra dust : Int) (fees : Fees)
    (htlcs : List ScriptHtlc) (result : CommitTx)
    (h : make_commitment sha ctn lf rf rpp pb rpb rvk dpk tsd ftxid fpos
      fsat la ra dust fees htlcs = .ok result) :
    extract_ctn_from_tx sha result.tx 0 pb rpb = .ok ctn := by
  simp only [make_commitment, make_funding_input, bind, Except.bind] at h
  split at h
  · split at h
    · split at h
      · exact Except.noConfusion h
      · rename_i idx heq
        injection h with h'
        subst h'
        simp only [extract_ctn_from_tx, Transaction.from_io, List.get?]
        simp only [get_obscured_ctn]
        have hmlt : beVal (lastN (sha (pb ++ rpb)) 6) < 2 ^ 48 :=
          obscure_mask_lt sha hsha pb rpb
        have hobs : Nat.xor ctn (beVal (lastN (sha (pb ++ rpb)) 6)) < 2 ^ 48 :=
          Nat.xor_lt_two_pow hctn hmlt
        rw [ctn_roundtrip_arith hobs, nat_xor_cancel]
    · exact Except.noConfusion h
  · exact Except.noConfusion h

/-- C5: every output of a commitment produced by `make_commitment` has value
at least `dust_limit_sat`, and the surviving outputs are ordered: to_local
(if it survived the dust filter), then to_remote (if it survived), then the
surviving HTLC outputs in the caller-provided order. -/
theorem C5_commitment_dust_trim (sha : Bytes → Bytes) (ctn : Nat)
    (lf rf rpp pb rpb rvk dpk : Bytes) (tsd : Int) (ftxid : Bytes)
    (fpos : Nat) (fsat la ra dust : Int) (fees : Fees)
    (htlcs : List ScriptHtlc) (result : CommitTx)
    (h : make_commitment sha ctn lf rf rpp pb rpb rvk dpk tsd ftxid fpos
      fsat la ra dust fees htlcs = .ok result) :
    (∀ o ∈ result.tx.outputs, dust ≤ o.value)
      ∧ result.tx.outputs =
          (if dust ≤ (la - fees.local_fee).fdiv 1000 then
            [⟨TYPE_ADDRESS, make_commitment_output_to_local_address rvk tsd dpk,
              (la - fees.local_fee).fdiv 1000⟩] else [])
          ++ (if dust ≤ (ra - fees.remote_fee).fdiv 1000 then
            [⟨TYPE_ADDRESS, make_commitment_output_to_remote_address rpp,
              (ra - fees.remote_fee).fdiv 1000⟩] else [])
          ++ (htlcs.map (fun sh => (⟨TYPE_ADDRESS,
                redeem_script_to_address "p2wsh" sh.redeem_script,
                sh.htlc.amount_msat.fdiv 1000⟩ : TxOutput))).filter
              (fun o => dust ≤ o.value) := by
  simp only [make_commitment, make_funding_input, make_outputs, bind,
    Except.bind] at h
  split at h
  · split at h
    · split at h
      · exact Except.noConfusion h
      · rename_i idx heq
        injection h with h'
        subst h'
        constructor
        · intro o ho
          simp only [Transaction.from_io] at ho
          have := (List.mem_filter.mp ho).2
          exact of_decide_eq_true this
        · simp only [Transaction.from_io, List.filter_append]
          by_cases h1 : dust ≤ (la - fees.local_fee).fdiv 1000
          · by_cases h2 : dust ≤ (ra - fees.remote_fee).fdiv 1000
            · simp [List.filter, h1, h2]
            · simp [List.filter, h1, h2]
          · by_cases h2 : dust ≤ (ra - fees.remote_fee).fdiv 1000
            · simp [List.filter, h1, h2]
            · simp [List.filter, h1, h2]
    · exact Except.noConfusion h
  · exact Except.noConfusion h

/-- Concrete commitment transaction for the C4 and C5 witnesses. -/
def commitTx0 : CommitTx :=
  match make_commitment sha0 5 [1] [2] [3] [4] [5] [6] [7] 144 [9] 0 1000000
      5000 3000 1 ⟨0, 0⟩ [] with
  | .ok r => r
  | .error _ => ⟨⟨[], [], 0, 0⟩, []⟩

/-- Evaluation witness for C4 at a concrete commitment. -/
theorem C4_witness :
    make_commitment sha0 5 [1] [2] [3] [4] [5] [6] [7] 144 [9] 0 1000000
        5000 3000 1 ⟨0, 0⟩ [] = .ok commitTx0
      ∧ extract_ctn_from_tx sha0 commitTx0.tx 0 [4] [5] = .ok 5 :=
  have h : make_commitment sha0 5 [1] [2] [3] [4] [5] [6] [7] 144 [9] 0
      1000000 5000 3000 1 ⟨0, 0⟩ [] = .ok commitTx0 := by decide
  ⟨h, C4_extract_ctn_roundtrip sha0
    (fun _ => (by decide : ValidBytes (List.replicate 32 0))) 5 (by decide)
    [1] [2] [3] [4] [5] [6] [7] 144 [9] 0 1000000 5000 3000 1 ⟨0, 0⟩ []
    commitTx0 h⟩

/-- Evaluation witness for C5 at a concrete commitment. -/
theorem C5_witness :
    make_commitment sha0 5 [1] [2] [3] [4] [5] [6] [7] 144 [9] 0 1000000
        5000 3000 1 ⟨0, 0⟩ [] = .ok commitTx0
      ∧ (∀ o ∈ commitTx0.tx.outputs, (1 : Int) ≤ o.value) :=
  have h : make_commitment sha0 5 [1] [2] [3] [4] [5] [6] [7] 144 [9] 0
      1000000 5000 3000 1 ⟨0, 0⟩ [] = .ok commitTx0 := by decide
  ⟨h, (C5_commitment_dust_trim sha0 5 [1] [2] [3] [4] [5] [6] [7] 144 [9] 0
    1000000 5000 3000 1 ⟨0, 0⟩ [] commitTx0 h).1⟩

/-! ## Claim C1: machinery — derivation characterised over naturals -/

lemma shachain_derive_nat (sha : Bytes → Bytes) (sec : Bytes) (m i : Nat)
    (hm : m < 2 ^ 48) (hi : i < 2 ^ 48) :
    shachain_derive sha ⟨sec, (m : Int)⟩ (i : Int)
      = if clearLow i (ctzN m) = m
        then .ok ⟨natLoopFrom sha i 0 (ctzN m) sec, (i : Int)⟩
        else .error .unableToDeriveSecret := by
  have hi64 : i < 2 ^ 64 := lt_of_lt_of_le hi (by norm_num)
  have hz64 : ctzN m ≤ 64 := by
    by_cases h0 : m = 0
    · simp [ctzN, h0]
    · have := ctzN_lt_48 (Nat.pos_of_ne_zero h0) hm
      omega
  simp only [shachain_derive, count_trailing_zeros_natCast,
    get_prefix_u64_natCast (ctzN m) hi64 hz64]
  by_cases hc : clearLow i (ctzN m) = m
  · rw [if_neg, if_pos hc]
    · simp only [get_per_commitment_secret_from_seed, perCommitAux_natCast]
    · rw [hc]
      simp
  · rw [if_pos, if_neg hc]
    intro hcast
    exact hc (by exact_mod_cast hcast.symm)

lemma mcand_exists (L b : Nat) : ∃ m, L ≤ m ∧ m % 2 ^ (b + 1) = 2 ^ b := by
  have hpos : 0 < (2:Nat) ^ (b + 1) := pow_pos (by norm_num) (b + 1)
  refine ⟨(L / 2 ^ (b + 1) + 1) * 2 ^ (b + 1) + 2 ^ b, ?_, ?_⟩
  · have h1 : L < 2 ^ (b + 1) * (L / 2 ^ (b + 1) + 1) := Nat.lt_mul_div_succ L hpos
    calc L ≤ 2 ^ (b + 1) * (L / 2 ^ (b + 1) + 1) := le_of_lt h1
      _ = (L / 2 ^ (b + 1) + 1) * 2 ^ (b + 1) := by ring
      _ ≤ (L / 2 ^ (b + 1) + 1) * 2 ^ (b + 1) + 2 ^ b := by omega
  · rw [Nat.mul_comm, Nat.mul_add_mod]
    apply Nat.mod_eq_of_lt
    rw [pow_succ]
    have := pow_pos (show (0:Nat) < 2 by norm_num) b
    omega

/-- Smallest index at least `L` whose trailing-zero count is exactly `b`
(i.e. congruent to `2^b` modulo `2^(b+1)`). -/
def mCand (L b : Nat) : Nat := Nat.find (mcand_exists L b)

lemma mCand_ge (L b : Nat) : L ≤ mCand L b := (Nat.find_spec (mcand_exists L b)).1

lemma mCand_mod (L b : Nat) : mCand L b % 2 ^ (b + 1) = 2 ^ b :=
  (Nat.find_spec (mcand_exists L b)).2

lemma mCand_min {L b c : Nat} (h1 : L ≤ c) (h2 : c % 2 ^ (b + 1) = 2 ^ b) :
    mCand L b ≤ c :=
  Nat.find_min' (mcand_exists L b) ⟨h1, h2⟩

lemma mCand_ctz (L b : Nat) : ctzN (mCand L b) = b := ctzN_eq_of_mod (mCand_mod L b)

lemma mCand_pos (L b : Nat) : 0 < mCand L b := by
  have h := mCand_mod L b
  have hpos : 0 < (2:Nat) ^ b := pow_pos (by norm_num) b
  by_contra h0
  push_neg at h0
  interval_cases hm : mCand L b
  simp at h
  omega

/-- Bucket contents of the revocation store after the whole window
`[L, 2^48)` of descending indices has been inserted. -/
def bucketVal (sha : Bytes → Bytes) (seed : Bytes) (L b : Nat) :
    Option ShachainElement :=
  if b = 48 then
    (if L = 0 then some ⟨natLoopFrom sha 0 0 48 seed, ((0 : Nat) : Int)⟩ else none)
  else
    (if mCand L b < 2 ^ 48 then
      some ⟨natLoopFrom sha (mCand L b) 0 48 seed, ((mCand L b : Nat) : Int)⟩
    else none)

/-- Full revocation-store state after `N` descending insertions. -/
def storeAfter (sha : Bytes → Bytes) (seed : Bytes) (N : Nat) : RevocationStore :=
  ⟨(List.range 49).map (fun b => bucketVal sha seed (2 ^ 48 - N) b),
    (2 ^ 48 : Int) - 1 - (N : Int)⟩

lemma two_pow_succ_gt (k : Nat) : (2:Nat) ^ k < 2 ^ (k + 1) := by
  rw [pow_succ]
  have := pow_pos (show (0:Nat) < 2 by norm_num) k
  omega

lemma mod_pow_zero_of_le {L' b k : Nat} (hk : k ≤ b) (hLz : L' % 2 ^ b = 0) :
    L' % 2 ^ k = 0 :=
  Nat.eq_zero_of_dvd_of_lt (dvd_trans (pow_dvd_pow 2 hk)
    (Nat.dvd_of_mod_eq_zero hLz)) |> fun _ => by
      exact (Nat.mod_eq_zero_of_dvd (dvd_trans (pow_dvd_pow 2 hk)
        (Nat.dvd_of_mod_eq_zero hLz)))

lemma mCand_of_low {L' b j L : Nat} (hj : j < b) (hLz : L' % 2 ^ b = 0)
    (h1 : L' ≤ L) (h2 : L ≤ L' + 2 ^ j) : mCand L j = L' + 2 ^ j := by
  have hLk : L' % 2 ^ (j + 1) = 0 := mod_pow_zero_of_le (by omega) hLz
  have htk : (2:Nat) ^ j < 2 ^ (j + 1) := two_pow_succ_gt j
  have hmodLj : (L' + 2 ^ j) % 2 ^ (j + 1) = 2 ^ j := by
    rw [Nat.add_mod, hLk, Nat.zero_add, Nat.mod_mod_of_dvd _ dvd_rfl,
      Nat.mod_eq_of_lt htk]
  apply le_antisymm
  · exact mCand_min h2 hmodLj
  · by_contra hlt
    push_neg at hlt
    have hge := mCand_ge L j
    have hmod := mCand_mod L j
    obtain ⟨d, hd⟩ : ∃ d, mCand L j = L' + d := ⟨mCand L j - L', by omega⟩
    have hdlt : d < 2 ^ j := by omega
    rw [hd, Nat.add_mod, hLk, Nat.zero_add, Nat.mod_mod_of_dvd _ dvd_rfl,
      Nat.mod_eq_of_lt (lt_trans hdlt htk)] at hmod
    omega

lemma mCand_self {L' b : Nat} (hmod : L' % 2 ^ (b + 1) = 2 ^ b) :
    mCand L' b = L' :=
  le_antisymm (mCand_min le_rfl hmod) (mCand_ge L' b)

lemma mCand_succ_high {L' b j : Nat} (hbj : b < j) (hL'pos : 0 < L')
    (hL'ctz : ctzN L' = b) : mCand (L' + 1) j = mCand L' j := by
  have hne : mCand L' j ≠ L' := by
    intro h
    have := mCand_mod L' j
    rw [h] at this
    have := ctzN_eq_of_mod this
    omega
  have hge : L' + 1 ≤ mCand L' j := by
    have := mCand_ge L' j
    omega
  apply le_antisymm
  · exact mCand_min hge (mCand_mod L' j)
  · exact mCand_min (by have := mCand_ge (L' + 1) j; omega) (mCand_mod (L' + 1) j)

lemma mCand_lt_iff {L k : Nat} (hL : L ≤ 2 ^ 48) (hk : k < 48) :
    mCand L k < 2 ^ 48 ↔ 2 ^ k ≤ 2 ^ 48 - L := by
  have hdvd : (2:Nat) ^ (k + 1) ∣ 2 ^ 48 := pow_dvd_pow 2 (by omega)
  obtain ⟨T, hT⟩ := hdvd
  have hM2t : (2:Nat) ^ (k + 1) = 2 * 2 ^ k := by rw [pow_succ]; ring
  have htpos : 0 < (2:Nat) ^ k := pow_pos (by norm_num) k
  have hMpos : 0 < (2:Nat) ^ (k + 1) := pow_pos (by norm_num) (k + 1)
  constructor
  · intro hlt
    have hmod := mCand_mod L k
    have hge := mCand_ge L k
    have hsm : mCand L k = 2 ^ (k + 1) * (mCand L k / 2 ^ (k + 1)) + 2 ^ k := by
      have := Nat.div_add_mod (mCand L k) (2 ^ (k + 1))
      omega
    obtain ⟨s, hs⟩ : ∃ s, mCand L k = 2 ^ (k + 1) * s + 2 ^ k := ⟨_, hsm⟩
    have hslt : s < T := by
      by_contra hTle
      push_neg at hTle
      have hmm : 2 ^ (k + 1) * T ≤ 2 ^ (k + 1) * s := Nat.mul_le_mul_left _ hTle
      omega
    obtain ⟨u, hu⟩ : ∃ u, T = s + 1 + u := ⟨T - s - 1, by omega⟩
    have hW : (2:Nat) ^ 48 = 2 ^ (k + 1) * s + 2 ^ (k + 1) + 2 ^ (k + 1) * u := by
      rw [hT, hu]; ring
    have hMu : (2:Nat) ^ (k + 1) * u = 2 * (2 ^ k * u) := by rw [hM2t]; ring
    have hMs : (2:Nat) ^ (k + 1) * s = 2 * (2 ^ k * s) := by rw [hM2t]; ring
    omega
  · intro hle
    have hT1 : 1 ≤ T := by
      by_contra h0
      push_neg at h0
      interval_cases T
      simp at hT
    obtain ⟨T', hT'⟩ : ∃ T', T = T' + 1 := ⟨T - 1, by omega⟩
    have hW : (2:Nat) ^ 48 = 2 ^ (k + 1) * T' + 2 ^ (k + 1) := by
      rw [hT, hT']; ring
    have hcand : (2 ^ 48 - 2 ^ k) % 2 ^ (k + 1) = 2 ^ k := by
      have heq : (2:Nat) ^ 48 - 2 ^ k = 2 ^ (k + 1) * T' + 2 ^ k := by omega
      rw [heq, Nat.mul_add_mod, Nat.mod_eq_of_lt (two_pow_succ_gt k)]
    have := mCand_min (show L ≤ 2 ^ 48 - 2 ^ k by omega) hcand
    omega

lemma storeAfter_zero (sha : Bytes → Bytes) (seed : Bytes) :
    storeAfter sha seed 0 = RevocationStore.fresh := by
  have hbuckets : (List.range 49).map (fun b => bucketVal sha seed (2 ^ 48 - 0) b)
      = List.replicate 49 (none : Option ShachainElement) := by
    refine List.eq_replicate_iff.mpr ⟨by simp, ?_⟩
    intro o ho
    rw [List.mem_map] at ho
    obtain ⟨b, hb, rfl⟩ := ho
    rw [List.mem_range] at hb
    by_cases hb48 : b = 48
    · simp only [bucketVal, hb48, if_true]
      rw [if_neg (by norm_num)]
    · have hge := mCand_ge (2 ^ 48 - 0) b
      simp only [bucketVal, hb48, if_false]
      rw [if_neg (by omega)]
  simp only [storeAfter, RevocationStore.fresh, RevocationStore.mk.injEq]
  exact ⟨hbuckets, by norm_num⟩

lemma storeAfter_get (sha : Bytes → Bytes) (seed : Bytes) (N k : Nat)
    (hk : k < 49) :
    (storeAfter sha seed N).buckets.get? k
      = some (bucketVal sha seed (2 ^ 48 - N) k) := by
  simp [storeAfter, List.get?_eq_getElem?, List.getElem?_map,
    List.getElem?_range hk]

lemma range_map_set_eq {α : Type} (f g : Nat → α) (n b : Nat) (hb : b < n)
    (x : α) (hbx : g b = x) (hother : ∀ j, j < n → j ≠ b → g j = f j) :
    ((List.range n).map f).set b x = (List.range n).map g := by
  apply List.ext_getElem?
  intro i
  rw [List.getElem?_set]
  by_cases hbi : b = i
  · subst hbi
    have hlen : b < ((List.range n).map f).length := by simp [hb]
    rw [if_pos rfl, if_pos hlen, List.getElem?_map, List.getElem?_range hb]
    simp [hbx]
  · rw [if_neg hbi, List.getElem?_map, List.getElem?_map]
    by_cases hin : i < n
    · rw [List.getElem?_range hin]
      simp [hother i hin (fun h => hbi h.symm)]
    · rw [List.getElem?_eq_none
        (show (List.range n).length ≤ i by rw [List.length_range]; omega)]
      simp

lemma ctzN_le_48 {L' : Nat} (hW : L' < 2 ^ 48) : ctzN L' ≤ 48 := by
  by_cases h0 : L' = 0
  · simp [ctzN, h0]
  · exact le_of_lt (ctzN_lt_48 (Nat.pos_of_ne_zero h0) hW)

lemma ctzN_mod_zero (L' : Nat) : L' % 2 ^ ctzN L' = 0 := by
  by_cases h0 : L' = 0
  · simp [h0]
  · exact Nat.mod_eq_zero_of_dvd (ctzN_spec (Nat.pos_of_ne_zero h0)).1

lemma derive_newel_ok (sha : Bytes → Bytes) (seed : Bytes) {L' k : Nat}
    (hW : L' < 2 ^ 48) (hkc : k < ctzN L') (hkW : L' + 2 ^ k < 2 ^ 48) :
    shachain_derive sha ⟨natLoopFrom sha L' 0 48 seed, (L' : Int)⟩
        ((L' + 2 ^ k : Nat) : Int)
      = .ok ⟨natLoopFrom sha (L' + 2 ^ k) 0 48 seed, ((L' + 2 ^ k : Nat) : Int)⟩ := by
  have hz48 : ctzN L' ≤ 48 := ctzN_le_48 hW
  have hLz : L' % 2 ^ ctzN L' = 0 := ctzN_mod_zero L'
  have hpowlt : (2:Nat) ^ k < 2 ^ ctzN L' := by
    have h1 : (2:Nat) ^ (k + 1) ≤ 2 ^ ctzN L' :=
      Nat.pow_le_pow_right (by norm_num) (by omega)
    have h2 := two_pow_succ_gt k
    omega
  have hclear : clearLow (L' + 2 ^ k) (ctzN L') = L' := by
    set z := ctzN L' with hzdef
    obtain ⟨q, hq⟩ := Nat.dvd_of_mod_eq_zero hLz
    rw [clearLow, hq, Nat.mul_add_div (pow_pos (by norm_num) z),
      Nat.div_eq_of_lt hpowlt, Nat.add_zero]
  rw [shachain_derive_nat sha _ L' (L' + 2 ^ k) hW hkW, if_pos hclear]
  have hsec : natLoopFrom sha (L' + 2 ^ k) 0 (ctzN L')
        (natLoopFrom sha L' 0 48 seed)
      = natLoopFrom sha (L' + 2 ^ k) 0 48 seed := by
    apply shachain_compose sha seed hz48
    · intro c hc
      exact ctzN_testBit_low hc
    · intro c hc
      conv_lhs => rw [← hclear]
      rw [clearLow_testBit_high hc]
  rw [hsec]

lemma range49_map_get (f : Nat → Option ShachainElement) (k : Nat) (hk : k < 49) :
    ((List.range 49).map f).get? k = some (f k) := by
  rw [List.get?_eq_getElem?, List.getElem?_map, List.getElem?_range hk]
  rfl

lemma add_next_entry_step (sha : Bytes → Bytes) (seed : Bytes) (L' : Nat)
    (hW : L' < 2 ^ 48) :
    add_next_entry sha
        ⟨(List.range 49).map (fun b => bucketVal sha seed (L' + 1) b), ((L' : Nat) : Int)⟩
        (natLoopFrom sha L' 0 48 seed)
      = .ok ⟨(List.range 49).map (fun b => bucketVal sha seed L' b),
          ((L' : Nat) : Int) - 1⟩ := by
  have hz48 : ctzN L' ≤ 48 := ctzN_le_48 hW
  have hLz : L' % 2 ^ ctzN L' = 0 := ctzN_mod_zero L'
  have hL'top : ∀ k, k < ctzN L' → L' + 2 ^ k < 2 ^ 48 := by
    intro k hk
    by_cases h0 : L' = 0
    · have hctz0 : ctzN (0:Nat) = 48 := by simp [ctzN]
      rw [h0] at hk ⊢
      rw [hctz0] at hk
      have := Nat.pow_lt_pow_right (show 1 < 2 by norm_num) (show k < 48 by omega)
      omega
    · have hpos := Nat.pos_of_ne_zero h0
      have hdvd : 2 ^ ctzN L' ∣ (2 ^ 48 - L') :=
        Nat.dvd_sub' (pow_dvd_pow 2 hz48) (Nat.dvd_of_mod_eq_zero hLz)
      have hsub_pos : 0 < 2 ^ 48 - L' := by omega
      have hge : 2 ^ ctzN L' ≤ 2 ^ 48 - L' := Nat.le_of_dvd hsub_pos hdvd
      have h1 : (2:Nat) ^ (k + 1) ≤ 2 ^ ctzN L' :=
        Nat.pow_le_pow_right (by norm_num) (by omega)
      have h2 := two_pow_succ_gt k
      omega
  have hbk : ∀ k, k < ctzN L' →
      bucketVal sha seed (L' + 1) k
        = some ⟨natLoopFrom sha (L' + 2 ^ k) 0 48 seed, ((L' + 2 ^ k : Nat) : Int)⟩ := by
    intro k hk
    have hk48 : k < 48 := by omega
    have hmc : mCand (L' + 1) k = L' + 2 ^ k :=
      mCand_of_low hk hLz (by omega)
        (by have := pow_pos (show (0:Nat) < 2 by norm_num) k; omega)
    simp only [bucketVal, show k ≠ 48 by omega, if_false]
    rw [hmc, if_pos (hL'top k hk)]
  have hchk : addCheckFrom sha
      ((List.range 49).map (fun b => bucketVal sha seed (L' + 1) b))
      ⟨natLoopFrom sha L' 0 48 seed, ((L' : Nat) : Int)⟩ 0 (ctzN L') = .ok () := by
    have hhyp : ∀ k, k < ctzN L' → ∃ tb,
        ((List.range 49).map (fun b => bucketVal sha seed (L' + 1) b)).get? (0 + k)
          = some (some tb)
        ∧ shachain_derive sha ⟨natLoopFrom sha L' 0 48 seed, ((L' : Nat) : Int)⟩
            tb.index = .ok tb := by
      intro k hk
      refine ⟨⟨natLoopFrom sha (L' + 2 ^ k) 0 48 seed, ((L' + 2 ^ k : Nat) : Int)⟩,
        ?_, ?_⟩
      · rw [Nat.zero_add, range49_map_get _ k (by omega), hbk k hk]
      · exact derive_newel_ok sha seed hW hk (hL'top k hk)
    exact addCheckFrom_skip sha _ _ (ctzN L') 0 0 hhyp
  have hset_b : bucketVal sha seed L' (ctzN L')
      = some ⟨natLoopFrom sha L' 0 48 seed, ((L' : Nat) : Int)⟩ := by
    by_cases h0 : L' = 0
    · rw [h0]
      simp [bucketVal, ctzN]
    · have hpos := Nat.pos_of_ne_zero h0
      have hb48 : ctzN L' < 48 := ctzN_lt_48 hpos hW
      simp only [bucketVal, show ctzN L' ≠ 48 by omega, if_false]
      rw [mCand_self (ctzN_mod_self hpos), if_pos hW]
  have hset_other : ∀ j, j < 49 → j ≠ ctzN L' →
      bucketVal sha seed L' j = bucketVal sha seed (L' + 1) j := by
    intro j hj hne
    by_cases hj48 : j = 48
    · have hL0 : L' ≠ 0 := by
        intro h0
        rw [h0] at hne
        exact hne (by rw [hj48]; simp [ctzN])
      simp only [bucketVal, hj48, if_true]
      rw [if_neg hL0, if_neg (by omega)]
    · by_cases hjb : j < ctzN L'
      · have hp := pow_pos (show (0:Nat) < 2 by norm_num) j
        simp only [bucketVal, hj48, if_false]
        rw [mCand_of_low hjb hLz le_rfl (by omega),
          mCand_of_low hjb hLz (by omega) (by omega)]
      · have hnej : ctzN L' < j := by omega
        have hL'pos : 0 < L' := by
          by_contra h0
          push_neg at h0
          have : L' = 0 := by omega
          rw [this] at hnej
          simp [ctzN] at hnej
          omega
        simp only [bucketVal, hj48, if_false]
        rw [mCand_succ_high hnej hL'pos rfl]
  have hsetmap := range_map_set_eq (fun b => bucketVal sha seed (L' + 1) b)
    (fun b => bucketVal sha seed L' b) 49 (ctzN L') (by omega)
    (some ⟨natLoopFrom sha L' 0 48 seed, ((L' : Nat) : Int)⟩) hset_b hset_other
  simp only [add_next_entry, count_trailing_zeros_natCast, hchk]
  rw [List.length_map, List.length_range, if_pos (show ctzN L' < 49 by omega)]
  exact congrArg (fun l => Except.ok (⟨l, ((L' : Nat) : Int) - 1⟩ : RevocationStore))
    hsetmap

lemma insertSeq_eq_storeAfter (sha : Bytes → Bytes) (seed : Bytes) :
    ∀ N, N ≤ 2 ^ 48 → insertSeq sha seed N = .ok (storeAfter sha seed N) := by
  intro N
  induction N with
  | zero =>
    intro _
    rw [show insertSeq sha seed 0 = .ok RevocationStore.fresh from rfl,
      storeAfter_zero]
  | succ N ih =>
    intro h
    have hW : 2 ^ 48 - (N + 1) < 2 ^ 48 := by omega
    simp only [insertSeq, ih (by omega), bind, Except.bind]
    rw [get_per_commitment_natCast]
    have hstoreN : storeAfter sha seed N
        = ⟨(List.range 49).map (fun b => bucketVal sha seed (2 ^ 48 - (N + 1) + 1) b),
           ((2 ^ 48 - (N + 1) : Nat) : Int)⟩ := by
      simp only [storeAfter, RevocationStore.mk.injEq]
      constructor
      · rw [show 2 ^ 48 - N = 2 ^ 48 - (N + 1) + 1 by omega]
      · rw [Nat.cast_sub h]
        push_cast
        ring
    have hstoreN1 : storeAfter sha seed (N + 1)
        = ⟨(List.range 49).map (fun b => bucketVal sha seed (2 ^ 48 - (N + 1)) b),
           ((2 ^ 48 - (N + 1) : Nat) : Int) - 1⟩ := by
      simp only [storeAfter, RevocationStore.mk.injEq]
      refine ⟨by trivial, ?_⟩
      rw [Nat.cast_sub h]
      push_cast
      ring
    rw [hstoreN, hstoreN1]
    exact add_next_entry_step sha seed (2 ^ 48 - (N + 1)) hW

lemma retrieveAux_fail (sha : Bytes → Bytes) (i : Int) :
    ∀ l : List (Option ShachainElement),
      (∀ k e, l.get? k = some (some e) →
        shachain_derive sha e i = .error .unableToDeriveSecret) →
      retrieveAux sha i l = .error .unableToDeriveSecret := by
  intro l
  induction l with
  | nil => intro _; rfl
  | cons x rest ih =>
    intro h
    cases x with
    | none => rfl
    | some e =>
      have h0 := h 0 e rfl
      simp only [retrieveAux, h0]
      exact ih (fun k ek hk => h (k + 1) ek hk)

lemma retrieveAux_ok (sha : Bytes → Bytes) (i : Int) (v : Bytes) :
    ∀ l : List (Option ShachainElement),
      (∀ k e, l.get? k = some (some e) →
        shachain_derive sha e i = .error .unableToDeriveSecret
          ∨ shachain_derive sha e i = .ok ⟨v, i⟩) →
      (∃ j, j < l.length ∧ (∀ k, k ≤ j → l.get? k ≠ some none) ∧
        (∃ e, l.get? j = some (some e) ∧ shachain_derive sha e i = .ok ⟨v, i⟩)) →
      retrieveAux sha i l = .ok v := by
  intro l
  induction l with
  | nil =>
    rintro _ ⟨j, hj, -, -⟩
    simp at hj
  | cons x rest ih =>
    rintro h ⟨j, hj, hnone, e, hje, hde⟩
    cases x with
    | none => exact absurd rfl (hnone 0 (by omega))
    | some e0 =>
      rcases h 0 e0 rfl with hfail | hok
      · cases j with
        | zero =>
          have hee : some (some e0) = some (some e) := hje
          injection hee with h1
          injection h1 with h2
          rw [← h2, hfail] at hde
          exact Except.noConfusion hde
        | succ j' =>
          simp only [retrieveAux, hfail]
          apply ih
          · intro k ek hk
            exact h (k + 1) ek hk
          · refine ⟨j', ?_, fun k hk => hnone (k + 1) (by omega), e, hje, hde⟩
            simp only [List.length_cons] at hj
            omega
      · simp only [retrieveAux, hok]

lemma derive_stored_ok (sha : Bytes → Bytes) (seed : Bytes) {m i : Nat}
    (hm : m < 2 ^ 48) (hi : i < 2 ^ 48) (hc : clearLow i (ctzN m) = m) :
    shachain_derive sha ⟨natLoopFrom sha m 0 48 seed, (m : Int)⟩ (i : Int)
      = .ok ⟨natLoopFrom sha i 0 48 seed, (i : Int)⟩ := by
  rw [shachain_derive_nat sha _ m i hm hi, if_pos hc]
  have hsec : natLoopFrom sha i 0 (ctzN m) (natLoopFrom sha m 0 48 seed)
      = natLoopFrom sha i 0 48 seed := by
    apply shachain_compose sha seed (ctzN_le_48 hm)
    · intro c hcc
      exact ctzN_testBit_low hcc
    · intro c hcc
      conv_lhs => rw [← hc]
      rw [clearLow_testBit_high hcc]
  rw [hsec]

lemma clearLow_zero_eq (i : Nat) (hi : i < 2 ^ 48) : clearLow i (ctzN 0) = 0 := by
  have hz : ctzN 0 = 48 := by simp [ctzN]
  rw [hz, clearLow, Nat.div_eq_of_lt hi, Nat.mul_zero]

lemma storeAfter_bucket_cases (sha : Bytes → Bytes) (seed : Bytes) (N i k : Nat)
    (hi : i < 2 ^ 48) (e : ShachainElement)
    (hk : (storeAfter sha seed N).buckets.get? k = some (some e)) :
    shachain_derive sha e (i : Int) = .error .unableToDeriveSecret
      ∨ shachain_derive sha e (i : Int)
          = .ok ⟨natLoopFrom sha i 0 48 seed, (i : Int)⟩ := by
  have hk49 : k < 49 := by
    by_contra hge
    push_neg at hge
    rw [List.get?_eq_getElem?,
      List.getElem?_eq_none (show (storeAfter sha seed N).buckets.length ≤ k by
        simp [storeAfter]; omega)] at hk
    exact Option.noConfusion hk
  rw [storeAfter_get sha seed N k hk49] at hk
  injection hk with hk
  by_cases hk48 : k = 48
  · subst hk48
    simp only [bucketVal, if_true] at hk
    by_cases hL0 : 2 ^ 48 - N = 0
    · rw [if_pos hL0] at hk
      injection hk with hk
      rw [← hk]
      right
      exact derive_stored_ok sha seed (by norm_num) hi (clearLow_zero_eq i hi)
    · rw [if_neg hL0] at hk
      exact Option.noConfusion hk
  · simp only [bucketVal, hk48, if_false] at hk
    by_cases hocc : mCand (2 ^ 48 - N) k < 2 ^ 48
    · rw [if_pos hocc] at hk
      injection hk with hk
      rw [← hk]
      by_cases hcl : clearLow i (ctzN (mCand (2 ^ 48 - N) k)) = mCand (2 ^ 48 - N) k
      · right
        exact derive_stored_ok sha seed hocc hi hcl
      · left
        rw [shachain_derive_nat sha _ _ i hocc hi, if_neg hcl]
    · rw [if_neg hocc] at hk
      exact Option.noConfusion hk

lemma retrieve_storeAfter_out (sha : Bytes → Bytes) (seed : Bytes) (N i : Nat)
    (hiL : i < 2 ^ 48 - N) :
    retrieve_secret sha (storeAfter sha seed N) (i : Int)
      = .error .unableToDeriveSecret := by
  have hiW : i < 2 ^ 48 := by omega
  simp only [retrieve_secret]
  apply retrieveAux_fail
  intro k e hk
  have hk49 : k < 49 := by
    by_contra hge
    push_neg at hge
    rw [List.get?_eq_getElem?,
      List.getElem?_eq_none (show (storeAfter sha seed N).buckets.length ≤ k by
        simp [storeAfter]; omega)] at hk
    exact Option.noConfusion hk
  rw [storeAfter_get sha seed N k hk49] at hk
  injection hk with hk
  by_cases hk48 : k = 48
  · subst hk48
    simp only [bucketVal, if_true] at hk
    by_cases hL0 : 2 ^ 48 - N = 0
    · omega
    · rw [if_neg hL0] at hk
      exact Option.noConfusion hk
  · simp only [bucketVal, hk48, if_false] at hk
    by_cases hocc : mCand (2 ^ 48 - N) k < 2 ^ 48
    · rw [if_pos hocc] at hk
      injection hk with hk
      rw [← hk]
      rw [shachain_derive_nat sha _ _ i hocc hiW, if_neg]
      have h1 := clearLow_le i (ctzN (mCand (2 ^ 48 - N) k))
      have h2 := mCand_ge (2 ^ 48 - N) k
      omega
    · rw [if_neg hocc] at hk
      exact Option.noConfusion hk

/-- Bit positions of `i` whose cleared-prefix value still lies in the
retrieval window starting at `L`. -/
def goodBit (i L t : Nat) : Prop := i.testBit t = true ∧ L ≤ clearLow i t

instance (i L t : Nat) : Decidable (goodBit i L t) :=
  inferInstanceAs (Decidable (i.testBit t = true ∧ L ≤ clearLow i t))

lemma clearLow_min_aux {i b L : Nat} (hiW : i < 2 ^ 48)
    (hbit : i.testBit b = true)
    (hmax : ∀ j, b < j → j ≤ 47 → i.testBit j = true → clearLow i j < L) :
    ∀ x, L ≤ x → x % 2 ^ (b + 1) = 2 ^ b → clearLow i b ≤ x := by
  intro x hxL hxmod
  by_cases hq : i / 2 ^ (b + 1) = 0
  · have h1 : i < 2 ^ (b + 1) := by
      by_contra hge
      push_neg at hge
      have := (Nat.one_le_div_iff (pow_pos (by norm_num) (b + 1))).mpr hge
      omega
    have hb1 : i / 2 ^ b % 2 = 1 := by
      rw [Nat.testBit_to_div_mod] at hbit
      exact of_decide_eq_true hbit
    have h4 : i / 2 ^ b < 2 := by
      apply Nat.div_lt_of_lt_mul
      rw [← pow_succ]
      exact h1
    have hidiv : i / 2 ^ b = 1 := by
      generalize hd : i / 2 ^ b = d at hb1 h4
      omega
    rw [clearLow, hidiv, Nat.mul_one]
    calc 2 ^ b = x % 2 ^ (b + 1) := hxmod.symm
      _ ≤ x := Nat.mod_le x _
  · have hqpos : 0 < i / 2 ^ (b + 1) := Nat.pos_of_ne_zero hq
    have hq48 : i / 2 ^ (b + 1) < 2 ^ 48 :=
      lt_of_le_of_lt (Nat.div_le_self i _) hiW
    have hdiv2 : i / 2 ^ (b + 1 + ctzN (i / 2 ^ (b + 1)))
        = (i / 2 ^ (b + 1)) / 2 ^ ctzN (i / 2 ^ (b + 1)) := by
      rw [pow_add, ← Nat.div_div_eq_div_mul]
    have hbit' : i.testBit (b + 1 + ctzN (i / 2 ^ (b + 1))) = true := by
      rw [Nat.testBit_to_div_mod, hdiv2]
      have := (ctzN_spec hqpos).2
      simp [this]
    have hb'48 : b + 1 + ctzN (i / 2 ^ (b + 1)) ≤ 47 := by
      by_contra hgt
      push_neg at hgt
      have hfalse : i.testBit (b + 1 + ctzN (i / 2 ^ (b + 1))) = false :=
        Nat.testBit_lt_two_pow
          (lt_of_lt_of_le hiW (Nat.pow_le_pow_right (by norm_num) (by omega)))
      rw [hfalse] at hbit'
      exact Bool.noConfusion hbit'
    have h2t : 2 ^ ctzN (i / 2 ^ (b + 1))
        * ((i / 2 ^ (b + 1)) / 2 ^ ctzN (i / 2 ^ (b + 1))) = i / 2 ^ (b + 1) :=
      Nat.mul_div_cancel' (ctzN_spec hqpos).1
    have hcl' : clearLow i (b + 1 + ctzN (i / 2 ^ (b + 1))) = clearLow i (b + 1) := by
      rw [clearLow, clearLow, hdiv2, pow_add, mul_assoc, h2t]
    have hmaxlt : clearLow i (b + 1) < L := by
      have hm := hmax (b + 1 + ctzN (i / 2 ^ (b + 1))) (by omega) hb'48 hbit'
      rw [hcl'] at hm
      exact hm
    have hcsplit : clearLow i b = clearLow i (b + 1) + 2 ^ b := by
      have hddd : i / 2 ^ b / 2 = i / 2 ^ (b + 1) := by
        rw [Nat.div_div_eq_div_mul, ← pow_succ]
      have hdm := Nat.div_add_mod (i / 2 ^ b) 2
      have hb1 : i / 2 ^ b % 2 = 1 := by
        rw [Nat.testBit_to_div_mod] at hbit
        exact of_decide_eq_true hbit
      have hsplit2 : i / 2 ^ b = 2 * (i / 2 ^ (b + 1)) + 1 := by
        rw [← hddd]
        omega
      rw [clearLow, clearLow, hsplit2, pow_succ]
      ring
    by_contra hlt
    push_neg at hlt
    have hc'mod : clearLow i (b + 1) % 2 ^ (b + 1) = 0 := clearLow_mod i (b + 1)
    obtain ⟨d, hd⟩ : ∃ d, x = clearLow i (b + 1) + d :=
      ⟨x - clearLow i (b + 1), by omega⟩
    have hdlt : d < 2 ^ b := by omega
    rw [hd, Nat.add_mod, hc'mod, Nat.zero_add, Nat.mod_mod_of_dvd _ dvd_rfl,
      Nat.mod_eq_of_lt (lt_trans hdlt (two_pow_succ_gt b))] at hxmod
    omega

lemma retrieve_storeAfter_in (sha : Bytes → Bytes) (seed : Bytes) (N i : Nat)
    (hN : N ≤ 2 ^ 48) (hiL : 2 ^ 48 - N ≤ i) (hiW : i < 2 ^ 48) :
    retrieve_secret sha (storeAfter sha seed N) (i : Int)
      = .ok (natLoopFrom sha i 0 48 seed) := by
  simp only [retrieve_secret]
  apply retrieveAux_ok
  · intro k e hk
    exact storeAfter_bucket_cases sha seed N i k hiW e hk
  · by_cases hi0 : i = 0
    · have hL0 : 2 ^ 48 - N = 0 := by omega
      refine ⟨48, by simp [storeAfter], ?_, ?_⟩
      · intro k hk
        rw [storeAfter_get sha seed N k (by omega)]
        intro hcontra
        injection hcontra with hcontra
        by_cases hk48 : k = 48
        · rw [hk48] at hcontra
          simp only [bucketVal, if_true] at hcontra
          rw [if_pos hL0] at hcontra
          exact Option.noConfusion hcontra
        · simp only [bucketVal, hk48, if_false] at hcontra
          have hk47 : k < 48 := by omega
          have hmc : mCand (2 ^ 48 - N) k < 2 ^ 48 := by
            have hcand : (2:Nat) ^ k % 2 ^ (k + 1) = 2 ^ k :=
              Nat.mod_eq_of_lt (two_pow_succ_gt k)
            have h1 := mCand_min (show 2 ^ 48 - N ≤ 2 ^ k by omega) hcand
            have h2 : (2:Nat) ^ k < 2 ^ 48 :=
              Nat.pow_lt_pow_right (by norm_num) hk47
            omega
          rw [if_pos hmc] at hcontra
          exact Option.noConfusion hcontra
      · refine ⟨⟨natLoopFrom sha 0 0 48 seed, ((0 : Nat) : Int)⟩, ?_, ?_⟩
        · rw [storeAfter_get sha seed N 48 (by omega)]
          simp only [bucketVal, if_true]
          rw [if_pos hL0]
        · rw [hi0]
          exact derive_stored_ok sha seed (by norm_num)
            (by norm_num : (0:Nat) < 2 ^ 48) (clearLow_zero_eq 0 (by norm_num))
    · have hipos : 0 < i := Nat.pos_of_ne_zero hi0
      have hctz47 : ctzN i ≤ 47 := by
        have := ctzN_lt_48 hipos hiW
        omega
      have hPmin : goodBit i (2 ^ 48 - N) (ctzN i) := by
        refine ⟨ctzN_testBit_self hipos, ?_⟩
        rw [clearLow_of_mod_eq_zero (ctzN_mod_zero i)]
        exact hiL
      have hPb : goodBit i (2 ^ 48 - N)
          (Nat.findGreatest (goodBit i (2 ^ 48 - N)) 47) :=
        Nat.findGreatest_spec hctz47 hPmin
      obtain ⟨hbit, hbL⟩ := hPb
      have hble : Nat.findGreatest (goodBit i (2 ^ 48 - N)) 47 ≤ 47 :=
        Nat.findGreatest_le 47
      have hmax : ∀ j, Nat.findGreatest (goodBit i (2 ^ 48 - N)) 47 < j →
          j ≤ 47 → i.testBit j = true → clearLow i j < 2 ^ 48 - N := by
        intro j h1 h2 h3
        have hnp := Nat.findGreatest_is_greatest h1 h2
        by_contra hge
        push_neg at hge
        exact hnp ⟨h3, hge⟩
      have hcmod : clearLow i (Nat.findGreatest (goodBit i (2 ^ 48 - N)) 47)
          % 2 ^ (Nat.findGreatest (goodBit i (2 ^ 48 - N)) 47 + 1)
          = 2 ^ Nat.findGreatest (goodBit i (2 ^ 48 - N)) 47 := by
        have hddd : i / 2 ^ Nat.findGreatest (goodBit i (2 ^ 48 - N)) 47 / 2
            = i / 2 ^ (Nat.findGreatest (goodBit i (2 ^ 48 - N)) 47 + 1) := by
          rw [Nat.div_div_eq_div_mul, ← pow_succ]
        have hb1 : i / 2 ^ Nat.findGreatest (goodBit i (2 ^ 48 - N)) 47 % 2 = 1 := by
          rw [Nat.testBit_to_div_mod] at hbit
          exact of_decide_eq_true hbit
        have hsplit2 : i / 2 ^ Nat.findGreatest (goodBit i (2 ^ 48 - N)) 47
            = 2 * (i / 2 ^ (Nat.findGreatest (goodBit i (2 ^ 48 - N)) 47 + 1)) + 1 := by
          rw [← hddd]
          have := Nat.div_add_mod
            (i / 2 ^ Nat.findGreatest (goodBit i (2 ^ 48 - N)) 47) 2
          omega
        have hcs : clearLow i (Nat.findGreatest (goodBit i (2 ^ 48 - N)) 47)
            = 2 ^ (Nat.findGreatest (goodBit i (2 ^ 48 - N)) 47 + 1)
                * (i / 2 ^ (Nat.findGreatest (goodBit i (2 ^ 48 - N)) 47 + 1))
              + 2 ^ Nat.findGreatest (goodBit i (2 ^ 48 - N)) 47 := by
          rw [clearLow, hsplit2, pow_succ]
          ring
        rw [hcs, Nat.mul_add_mod,
          Nat.mod_eq_of_lt (two_pow_succ_gt (Nat.findGreatest (goodBit i (2 ^ 48 - N)) 47))]
      set b := Nat.findGreatest (goodBit i (2 ^ 48 - N)) 47 with hbdef
      have hmin := clearLow_min_aux hiW hbit hmax
      have hmEq : mCand (2 ^ 48 - N) b = clearLow i b :=
        le_antisymm (mCand_min hbL hcmod)
          (hmin _ (mCand_ge _ _) (mCand_mod _ _))
      have hb48 : b < 48 := by omega
      have hocc : mCand (2 ^ 48 - N) b < 2 ^ 48 := by
        rw [hmEq]
        exact lt_of_le_of_lt (clearLow_le i b) hiW
      have hNle : 2 ^ b ≤ 2 ^ 48 - (2 ^ 48 - N) :=
        (mCand_lt_iff (by omega) hb48).mp hocc
      refine ⟨b, by simp [storeAfter]; omega, ?_, ?_⟩
      · intro k hk
        rw [storeAfter_get sha seed N k (by omega)]
        intro hcontra
        injection hcontra with hcontra
        have hk48 : k ≠ 48 := by omega
        simp only [bucketVal, hk48, if_false] at hcontra
        have hmc : mCand (2 ^ 48 - N) k < 2 ^ 48 := by
          apply (mCand_lt_iff (by omega) (by omega)).mpr
          calc (2:Nat) ^ k ≤ 2 ^ b := Nat.pow_le_pow_right (by norm_num) hk
            _ ≤ 2 ^ 48 - (2 ^ 48 - N) := hNle
        rw [if_pos hmc] at hcontra
        exact Option.noConfusion hcontra
      · refine ⟨⟨natLoopFrom sha (mCand (2 ^ 48 - N) b) 0 48 seed,
          ((mCand (2 ^ 48 - N) b : Nat) : Int)⟩, ?_, ?_⟩
        · rw [storeAfter_get sha seed N b (by omega)]
          simp only [bucketVal, show b ≠ 48 by omega, if_false]
          rw [if_pos hocc]
        · have hcl : clearLow i (ctzN (mCand (2 ^ 48 - N) b))
              = mCand (2 ^ 48 - N) b := by
            rw [mCand_ctz, hmEq]
          exact derive_stored_ok sha seed hocc hiW hcl

/-- C1: for every 32-byte seed and every `N ∈ [1, 2^48]`, inserting the
secrets `get_per_commitment_secret_from_seed seed i 48` for
`i = 2^48-1, 2^48-2, ..., 2^48-N` into a fresh `RevocationStore` with
`add_next_entry` succeeds at every step, and afterwards `retrieve_secret i`
returns `get_per_commitment_secret_from_seed seed i 48` for every `i` in
`[2^48-N, 2^48-1]` and raises `UnableToDeriveSecret` for every
`i ∈ [0, 2^48-1]` outside that window. -/
theorem C1_shachain_derivability (sha : Bytes → Bytes) (seed : Bytes)
    (hseed : seed.length = 32) (N : Nat) (hN1 : 1 ≤ N) (hN : N ≤ 2 ^ 48) :
    ∃ store : RevocationStore, insertSeq sha seed N = .ok store ∧
      ∀ i : Nat, i < 2 ^ 48 →
        (2 ^ 48 - N ≤ i → retrieve_secret sha store (i : Int)
            = .ok (get_per_commitment_secret_from_seed sha seed (i : Int) 48))
        ∧ (i < 2 ^ 48 - N → retrieve_secret sha store (i : Int)
            = .error .unableToDeriveSecret) := by
  refine ⟨storeAfter sha seed N, insertSeq_eq_storeAfter sha seed N hN, ?_⟩
  intro i hi
  constructor
  · intro hiL
    rw [retrieve_storeAfter_in sha seed N i hN hiL hi,
      get_per_commitment_natCast]
  · intro hiL
    exact retrieve_storeAfter_out sha seed N i hiL

/-- Evaluation witness for C1 at a concrete seed and `N = 1`. -/
theorem C1_witness :
    seed0.length = 32 ∧ (1:Nat) ≤ 1 ∧ (1:Nat) ≤ 2 ^ 48 ∧
      (∃ store : RevocationStore, insertSeq sha0 seed0 1 = .ok store ∧
        ∀ i : Nat, i < 2 ^ 48 →
          (2 ^ 48 - 1 ≤ i → retrieve_secret sha0 store (i : Int)
              = .ok (get_per_commitment_secret_from_seed sha0 seed0 (i : Int) 48))
          ∧ (i < 2 ^ 48 - 1 → retrieve_secret sha0 store (i : Int)
              = .error .unableToDeriveSecret)) :=
  ⟨by decide, le_rfl, by norm_num,
    C1_shachain_derivability sha0 seed0 (by decide) 1 le_rfl (by norm_num)⟩
